import Mathlib

/-!
Verification development for the tender-checklist-extractor pipeline.

Shallow embedding of the core pipeline modules:
* `src/lib/pdf-splitter.ts` — page-range splitting (`splitPdfChunks`)
* `src/lib/text-processing.ts` — whitespace normalisation and text segmentation
  (`normalizeText`, `splitTextIntoParagraphs`)
* `src/lib/extraction.ts` — query classification (`detectQueryType`), per-file
  session ids (`generateFileSessionId`), the per-document orchestration loop
  (`parseDocuments`), and the progress step-count computation
* the embeddings module (`storeEmbeddings`, `cleanupEmbeddings`) — remote calls
  are modelled as oracle parameters plus an explicit call trace

Strings are modelled as `List Char` where character-level processing matters
(JS `string.length` and the processed texts here are within the BMP, so
UTF-16 length and character count coincide). Remote services (extraction,
embedding, vector index, answer synthesis) are opaque oracles: functions
returning `Except` to model thrown exceptions, with call traces recorded as
lists of events.

Loops whose JS counterparts advance by a configured stride are embedded with
an explicit fuel argument (structural recursion) so that every definition
evaluates by kernel reduction; fuel adequacy is part of the proofs.
-/

set_option maxRecDepth 400000

/-! ## Configuration constants (from `src/lib/config.json`) -/

/-- `pdf.splitting.defaultChunkSize` -/
def defaultChunkSize : Nat := 4

/-- `pdf.splitting.defaultOverlap` -/
def defaultOverlap : Nat := 1

/-- `pdf.splitting.splitThreshold` -/
def splitThreshold : Nat := 3

/-- `processing.extraction.totalStepsMultiplier` -/
def totalStepsMultiplier : Nat := 2

/-- `processing.extraction.baseStepsCount` -/
def baseStepsCount : Nat := 2

/-- `processing.embeddings.batchSize` -/
def embeddingsBatchSize : Nat := 100

/-- `text.processing.maxParagraphLength` -/
def maxParagraphLength : Nat := 800

/-- `text.processing.maxSentenceChunkLength` -/
def maxSentenceChunkLength : Nat := 800

/-- `text.processing.minTextLength` -/
def minTextLength : Nat := 30

/-! ## Page Splitter (`src/lib/pdf-splitter.ts`, `splitPdfChunks`)

Pages are zero-based indices `0 .. total-1`.  A slice is represented by its
final page-index list (the argument passed to `copyPages` after the
de-dupe & sort step); the primary range of the slice starting at `start` is
`[start, min (start+chunkSize) total)`. -/

/-- Insertion into a sorted list; used to model `Array.prototype.sort` with a
numeric comparator (ascending). -/
def insertNat (x : Nat) : List Nat → List Nat
  | [] => [x]
  | y :: ys => if x ≤ y then x :: y :: ys else y :: insertNat x ys

/-- Ascending numeric sort, modelling `.sort((a, b) => a - b)`. -/
def sortNats : List Nat → List Nat
  | [] => []
  | x :: xs => insertNat x (sortNats xs)

/-- Body of the `while (start < total)` loop of `splitPdfChunks`
(`src/lib/pdf-splitter.ts` lines 37-74): primary pages `[start, end)`, then
the `overlap` pages after `end` that exist (appended in ascending order), then
the `overlap` pages before `start` that exist (each `unshift` puts the newest
in front, so the prefix ends up ascending), then de-dupe and numeric sort. -/
def chunkPages (total chunkSize overlap start : Nat) : List Nat :=
  let ed := min (start + chunkSize) total
  let primary := List.range' start (ed - start)
  let withAfter := primary ++ (List.range' 1 overlap).filterMap
    (fun i => if ed + i - 1 < total then some (ed + i - 1) else none)
  let pages := ((List.range' 1 overlap).filterMap
    (fun i => if i ≤ start then some (start - i) else none)).reverse ++ withAfter
  sortNats pages.dedup

/-- The `while (start < total)` loop of `splitPdfChunks`, advancing `start`
by `chunkSize` each iteration.  `fuel` bounds the number of iterations; with
`chunkSize > 0` a fuel of `total` is always sufficient. -/
def splitPdfChunksGo (total chunkSize overlap : Nat) : Nat → Nat → List (List Nat)
  | 0, _ => []
  | fuel + 1, start =>
    if start < total then
      chunkPages total chunkSize overlap start ::
        splitPdfChunksGo total chunkSize overlap fuel (start + chunkSize)
    else []

/-- `splitPdfChunks` at the page-index level: the list of page-index lists of
the produced slices, in emission order. -/
def splitPdfChunks (total chunkSize overlap : Nat) : List (List Nat) :=
  splitPdfChunksGo total chunkSize overlap total 0

/-- The primary ranges `[start, min (start+chunkSize) total)` of the slices,
in emission order (same loop skeleton as `splitPdfChunksGo`). -/
def primaryRangesGo (total chunkSize : Nat) : Nat → Nat → List (Nat × Nat)
  | 0, _ => []
  | fuel + 1, start =>
    if start < total then
      (start, min (start + chunkSize) total) ::
        primaryRangesGo total chunkSize fuel (start + chunkSize)
    else []

/-- Primary ranges of `splitPdfChunks total chunkSize overlap`. -/
def primaryRanges (total chunkSize : Nat) : List (Nat × Nat) :=
  primaryRangesGo total chunkSize total 0

lemma mem_insertNat {a x : Nat} {l : List Nat} :
    a ∈ insertNat x l ↔ a = x ∨ a ∈ l := by
  induction l with
  | nil => simp [insertNat]
  | cons y ys ih =>
    by_cases h : x ≤ y
    · simp [insertNat, h, ih]
    · simp only [insertNat, if_neg h, List.mem_cons, ih]
      tauto

lemma mem_sortNats {a : Nat} {l : List Nat} : a ∈ sortNats l ↔ a ∈ l := by
  induction l with
  | nil => simp [sortNats]
  | cons x xs ih => simp [sortNats, mem_insertNat, ih]

lemma mem_chunkPages_of_primary {total chunkSize overlap start p : Nat}
    (h₁ : start ≤ p) (h₂ : p < min (start + chunkSize) total) :
    p ∈ chunkPages total chunkSize overlap start := by
  have hle : start ≤ min (start + chunkSize) total := by omega
  rw [chunkPages, mem_sortNats, List.mem_dedup]
  refine List.mem_append.mpr (Or.inr (List.mem_append.mpr (Or.inl ?_)))
  rw [List.mem_range'_1]
  omega

lemma primaryRangesGo_countP_lt {total chunkSize p : Nat} :
    ∀ fuel start, p < start →
      List.countP (fun r => decide (r.1 ≤ p ∧ p < r.2))
        (primaryRangesGo total chunkSize fuel start) = 0 := by
  intro fuel
  induction fuel with
  | zero => intro start _; simp [primaryRangesGo]
  | succ n ih =>
    intro start hp
    rw [primaryRangesGo]
    by_cases hs : start < total
    · rw [if_pos hs, List.countP_cons]
      have h1 : (decide (start ≤ p ∧ p < min (start + chunkSize) total)) = false := by
        simp only [decide_eq_false_iff_not]
        omega
      rw [ih (start + chunkSize) (by omega)]
      simp [h1] <;> omega
    · rw [if_neg hs]; rfl

lemma primaryRangesGo_countP_one {total chunkSize p : Nat} (hC : 0 < chunkSize)
    (hp : p < total) :
    ∀ fuel start, start ≤ p → total ≤ start + fuel * chunkSize →
      List.countP (fun r => decide (r.1 ≤ p ∧ p < r.2))
        (primaryRangesGo total chunkSize fuel start) = 1 := by
  intro fuel
  induction fuel with
  | zero => intro start h₁ h₂; omega
  | succ n ih =>
    intro start h₁ h₂
    have hs : start < total := by omega
    rw [primaryRangesGo, if_pos hs, List.countP_cons]
    by_cases hin : p < start + chunkSize
    · have h1 : (decide (start ≤ p ∧ p < min (start + chunkSize) total)) = true := by
        simp only [decide_eq_true_eq]
        omega
      rw [primaryRangesGo_countP_lt n (start + chunkSize) (by omega)]
      simp [h1] <;> omega
    · have h1 : (decide (start ≤ p ∧ p < min (start + chunkSize) total)) = false := by
        simp only [decide_eq_false_iff_not]
        omega
      rw [ih (start + chunkSize) (by omega) (by
        have : start + (n + 1) * chunkSize = start + chunkSize + n * chunkSize := by ring
        omega)]
      simp [h1] <;> omega

lemma splitPdfChunksGo_cover {total chunkSize overlap p : Nat} (hC : 0 < chunkSize)
    (hp : p < total) :
    ∀ fuel start, start ≤ p → total ≤ start + fuel * chunkSize →
      ∃ s ∈ splitPdfChunksGo total chunkSize overlap fuel start, p ∈ s := by
  intro fuel
  induction fuel with
  | zero => intro start h₁ h₂; omega
  | succ n ih =>
    intro start h₁ h₂
    have hs : start < total := by omega
    rw [splitPdfChunksGo, if_pos hs]
    by_cases hin : p < start + chunkSize
    · exact ⟨chunkPages total chunkSize overlap start, List.mem_cons_self _ _,
        mem_chunkPages_of_primary h₁ (by omega)⟩
    · obtain ⟨s, hs₁, hs₂⟩ := ih (start + chunkSize) (by omega) (by
        have : start + (n + 1) * chunkSize = start + chunkSize + n * chunkSize := by ring
        omega)
      exact ⟨s, List.mem_cons_of_mem _ hs₁, hs₂⟩

/-- **C1.** For page count `N > 0`, chunk size `C > 0`, overlap `O ≥ 0`:
the primary ranges `[start, min (start+C) N)` for `start = 0, C, 2C, …`
partition `[0, N)` exactly (each page is inside exactly one primary range),
every page appears in at least one slice's full (overlap-inclusive) page set,
and `N = 12, C = 4, O = 1` yields exactly 3 slices with primary ranges
`[0,4), [4,8), [8,12)` and full page sets `[0,5), [3,9), [7,12)`. -/
theorem C1_page_splitter_partition (N C O : Nat) (hN : 0 < N) (hC : 0 < C) :
    (∀ p, p < N →
      List.countP (fun r => decide (r.1 ≤ p ∧ p < r.2)) (primaryRanges N C) = 1)
    ∧ (∀ p, p < N → ∃ s ∈ splitPdfChunks N C O, p ∈ s)
    ∧ splitPdfChunks 12 4 1 = [[0, 1, 2, 3, 4], [3, 4, 5, 6, 7, 8], [7, 8, 9, 10, 11]]
    ∧ primaryRanges 12 4 = [(0, 4), (4, 8), (8, 12)]
    ∧ (splitPdfChunks 12 4 1).length = 3 := by
  refine ⟨?_, ?_, by decide, by decide, by decide⟩
  · intro p hp
    exact primaryRangesGo_countP_one hC hp N 0 (by omega) (by
      have : N * 1 ≤ N * C := Nat.mul_le_mul_left N hC
      omega)
  · intro p hp
    exact splitPdfChunksGo_cover hC hp N 0 (by omega) (by
      have : N * 1 ≤ N * C := Nat.mul_le_mul_left N hC
      omega)

/-- Witness for `C1_page_splitter_partition` at `N = 12, C = 4, O = 1`. -/
theorem C1_page_splitter_partition_witness :
    splitPdfChunks 12 4 1 = [[0, 1, 2, 3, 4], [3, 4, 5, 6, 7, 8], [7, 8, 9, 10, 11]] :=
  (C1_page_splitter_partition 12 4 1 (by decide) (by decide)).2.2.1

/-! ## JS string primitives (`src/lib/text-processing.ts`)

Text is modelled as `List Char`.  `isJsWs` is ECMAScript's `\s` class
(WhiteSpace ∪ LineTerminator).  A global `replace` whose pattern matches
maximal runs of a character class is realised by `collapseRuns`:
* `/\n+/g` rewrites each maximal run of newlines,
* `/[ \t]+/g` each maximal run of spaces/tabs,
* `/[^\S\n]+/g` each maximal run of newline-free whitespace,
* `/\s*\n\s*/g` — by greediness of `\s*` — each maximal whitespace run that
  contains at least one newline (runs without a newline are left alone). -/

/-- ECMAScript `\s` (WhiteSpace ∪ LineTerminator). -/
def isJsWs (c : Char) : Bool :=
  c == ' ' || c == '\t' || c == '\n' || c == '\r' || c == '\x0b' || c == '\x0c' ||
  c == ' ' || c == ' ' || (' ' ≤ c && c ≤ ' ') ||
  c == ' ' || c == ' ' || c == ' ' || c == ' ' ||
  c == '　' || c == '﻿'

/-- Right half of `String.prototype.trim`. -/
def dropTrailingWs (l : List Char) : List Char :=
  (l.reverse.dropWhile isJsWs).reverse

/-- `String.prototype.trim`. -/
def jsTrim (l : List Char) : List Char :=
  dropTrailingWs (l.dropWhile isJsWs)

/-- `.replace(/\r\n/g, "\n")`. -/
def replCRLF : List Char → List Char
  | [] => []
  | [c] => [c]
  | c₁ :: c₂ :: cs =>
    if c₁ = '\r' ∧ c₂ = '\n' then '\n' :: replCRLF cs
    else c₁ :: replCRLF (c₂ :: cs)

/-- Engine for a global replace rewriting each maximal run of characters of
class `p` through `f`; `run` holds the current run in reverse order. -/
def collapseGo (p : Char → Bool) (f : List Char → List Char) :
    List Char → List Char → List Char
  | run, [] => if run.isEmpty then [] else f run.reverse
  | run, c :: cs =>
    if p c then collapseGo p f (c :: run) cs
    else (if run.isEmpty then [] else f run.reverse) ++ c :: collapseGo p f [] cs

/-- Rewrite each maximal `p`-run of `l` through `f`. -/
def collapseRuns (p : Char → Bool) (f : List Char → List Char) (l : List Char) :
    List Char :=
  collapseGo p f [] l

/-- Character class of `/\n+/g`. -/
def isNl (c : Char) : Bool := c == '\n'

/-- Character class of `/[ \t]+/g`. -/
def isSpTab (c : Char) : Bool := c == ' ' || c == '\t'

/-- Character class of `/[^\S\n]+/g`. -/
def isNonNlWs (c : Char) : Bool := isJsWs c && !(c == '\n')

/-- Run-rewriter of `/\s*\n\s*/g → "\n"`: a maximal whitespace run containing
a newline becomes a single newline, any other whitespace run is untouched. -/
def nlRunRepl (run : List Char) : List Char :=
  if run.contains '\n' then ['\n'] else run

/-- `normalizeText` (`src/lib/text-processing.ts` lines 140-149): normalise
line breaks (`\r\n`, `\r` → `\n`), collapse newline runs, collapse space/tab
runs, collapse whitespace runs around newlines, collapse remaining
newline-free whitespace runs to one space, then trim. -/
def normalizeText (l : List Char) : List Char :=
  jsTrim
    (collapseRuns isNonNlWs (fun _ => [' '])
      (collapseRuns isJsWs nlRunRepl
        (collapseRuns isSpTab (fun _ => [' '])
          (collapseRuns isNl (fun _ => ['\n'])
            ((replCRLF l).map (fun c => if c = '\r' then '\n' else c))))))

/-- `hasAdj q r l` holds when some adjacent pair `a, b` of `l` satisfies
`q a` and `r b`. -/
def hasAdj (q r : Char → Bool) : List Char → Bool
  | a :: b :: t => (q a && r b) || hasAdj q r (b :: t)
  | _ => false

/-- The normal form established by `normalizeText`: whitespace characters are
only `' '` and `'\n'`, no two adjacent characters are both whitespace, and
the ends are not whitespace. -/
def goodText (l : List Char) : Prop :=
  (∀ c ∈ l, isJsWs c = true → c = ' ' ∨ c = '\n')
  ∧ hasAdj isJsWs isJsWs l = false
  ∧ (∀ h, l.head? = some h → isJsWs h = false)
  ∧ (∀ h, l.getLast? = some h → isJsWs h = false)

lemma hasAdj_cons_of {q r : Char → Bool} {x : Char} {l : List Char}
    (h : hasAdj q r l = true) : hasAdj q r (x :: l) = true := by
  cases l with
  | nil => simp [hasAdj] at h
  | cons y t => simp [hasAdj, h]

lemma hasAdj_tail {q r : Char → Bool} {x : Char} {l : List Char}
    (h : hasAdj q r (x :: l) = false) : hasAdj q r l = false := by
  cases l with
  | nil => simp [hasAdj]
  | cons y t =>
    by_cases hy : hasAdj q r (y :: t) = true
    · simp [hasAdj, hy] at h
    · simpa using hy

lemma hasAdj_iff_adj_pair {q r : Char → Bool} {l : List Char} :
    hasAdj q r l = true ↔ ∃ a b, q a = true ∧ r b = true ∧ [a, b] <:+: l := by
  constructor
  · intro h
    induction l with
    | nil => simp [hasAdj] at h
    | cons x t ih =>
      cases t with
      | nil => simp [hasAdj] at h
      | cons y u =>
        rw [hasAdj, Bool.or_eq_true, Bool.and_eq_true] at h
        rcases h with ⟨hx, hy⟩ | h
        · exact ⟨x, y, hx, hy, [], u, by simp⟩
        · obtain ⟨a, b, ha, hb, s, t', ht⟩ := ih h
          exact ⟨a, b, ha, hb, x :: s, t', by simp [← ht]⟩
  · rintro ⟨a, b, ha, hb, s, t, rfl⟩
    induction s with
    | nil => simp [hasAdj, ha, hb]
    | cons x s' ih => exact hasAdj_cons_of ih

lemma hasAdj_false_mono {q r : Char → Bool} {m l : List Char}
    (hm : m <:+: l) (h : hasAdj q r l = false) : hasAdj q r m = false := by
  by_contra hc
  rw [Bool.not_eq_false, hasAdj_iff_adj_pair] at hc
  obtain ⟨a, b, ha, hb, hinf⟩ := hc
  have : hasAdj q r l = true := hasAdj_iff_adj_pair.mpr ⟨a, b, ha, hb, hinf.trans hm⟩
  simp [this] at h

lemma hasAdj_false_pred_mono {p q P Q : Char → Bool} {l : List Char}
    (hp : ∀ c, p c = true → P c = true) (hq : ∀ c, q c = true → Q c = true)
    (h : hasAdj P Q l = false) : hasAdj p q l = false := by
  by_contra hc
  rw [Bool.not_eq_false, hasAdj_iff_adj_pair] at hc
  obtain ⟨a, b, ha, hb, hinf⟩ := hc
  have : hasAdj P Q l = true := hasAdj_iff_adj_pair.mpr ⟨a, b, hp a ha, hq b hb, hinf⟩
  simp [this] at h

lemma hasAdj_reverse_false {q : Char → Bool} {l : List Char}
    (h : hasAdj q q l = false) : hasAdj q q l.reverse = false := by
  by_contra hc
  rw [Bool.not_eq_false, hasAdj_iff_adj_pair] at hc
  obtain ⟨a, b, ha, hb, hinf⟩ := hc
  have h2 : [b, a] <:+: l := by
    have h3 := List.reverse_infix.mpr hinf
    simpa using h3
  have : hasAdj q q l = true := hasAdj_iff_adj_pair.mpr ⟨b, a, hb, ha, h2⟩
  simp [this] at h

lemma hasAdj_false_of_no_q {q r : Char → Bool} {l : List Char}
    (h : ∀ a ∈ l, q a = false) : hasAdj q r l = false := by
  induction l with
  | nil => simp [hasAdj]
  | cons x t ih =>
    cases t with
    | nil => simp [hasAdj]
    | cons y u =>
      rw [hasAdj, Bool.or_eq_false_iff]
      refine ⟨by simp [h x (by simp)], ih ?_⟩
      intro a ha
      exact h a (List.mem_cons_of_mem _ ha)

lemma hasAdj_false_of_no_r {q r : Char → Bool} {l : List Char}
    (h : ∀ b ∈ l, r b = false) : hasAdj q r l = false := by
  induction l with
  | nil => simp [hasAdj]
  | cons x t ih =>
    cases t with
    | nil => simp [hasAdj]
    | cons y u =>
      rw [hasAdj, Bool.or_eq_false_iff]
      refine ⟨by simp [h y (by simp)], ih ?_⟩
      intro b hb
      exact h b (List.mem_cons_of_mem _ hb)

lemma hasAdj_append_cons {q r : Char → Bool} (u : List Char) (c : Char)
    (v : List Char) :
    hasAdj q r (u ++ c :: v) = (hasAdj q r (u ++ [c]) || hasAdj q r (c :: v)) := by
  induction u with
  | nil => simp [hasAdj]
  | cons x u' ih =>
    cases u' with
    | nil => simp [hasAdj, Bool.or_assoc]
    | cons y u'' =>
      simp only [List.cons_append] at ih ⊢
      simp [hasAdj, ih, Bool.or_assoc]

lemma hasAdj_cons_false {q r : Char → Bool} {c : Char} {l : List Char}
    (hq : q c = false) (h : hasAdj q r l = false) : hasAdj q r (c :: l) = false := by
  cases l with
  | nil => simp [hasAdj]
  | cons y t => simp [hasAdj, hq, h]

lemma collapseGo_singleton {p : Char → Bool} {f : List Char → List Char}
    {c : Char} {cs : List Char} (hc : p c = true) (hf : f [c] = [c])
    (hnext : ∀ d, cs.head? = some d → p d = false) :
    collapseGo p f [c] cs = c :: collapseGo p f [] cs := by
  cases cs with
  | nil => simp [collapseGo, hf]
  | cons d ds =>
    have hd : p d = false := hnext d rfl
    simp [collapseGo, hd, hf]

lemma collapseRuns_eq_self {p : Char → Bool} {f : List Char → List Char}
    {l : List Char} (hAdj : hasAdj p p l = false)
    (hf : ∀ c ∈ l, p c = true → f [c] = [c]) : collapseRuns p f l = l := by
  induction l with
  | nil => rfl
  | cons c cs ih =>
    have ihcs : collapseRuns p f cs = cs :=
      ih (hasAdj_tail hAdj) (fun d hd => hf d (List.mem_cons_of_mem _ hd))
    by_cases hc : p c = true
    · have hnext : ∀ d, cs.head? = some d → p d = false := by
        intro d hd
        cases cs with
        | nil => simp at hd
        | cons e es =>
          have he : e = d := by simpa using hd
          subst he
          by_cases hpe : p e = true
          · simp [hasAdj, hc, hpe] at hAdj
          · simpa using hpe
      have : collapseGo p f [] (c :: cs) = collapseGo p f [c] cs := by
        simp [collapseGo, hc]
      rw [collapseRuns, this,
        collapseGo_singleton hc (hf c (by simp) hc) hnext]
      exact congrArg (c :: ·) ihcs
    · have : collapseGo p f [] (c :: cs) = c :: collapseGo p f [] cs := by
        simp [collapseGo, hc]
      rw [collapseRuns, this]
      exact congrArg (c :: ·) ihcs

lemma isNl_false_of_not_ws {c : Char} (h : isJsWs c = false) : isNl c = false := by
  by_contra hc
  rw [Bool.not_eq_false] at hc
  have : c = '\n' := by simpa [isNl] using hc
  subst this
  simp [isJsWs] at h

/-- No newline is adjacent to a whitespace character (on either side). -/
def nlAdjFree (l : List Char) : Prop :=
  hasAdj isNl isJsWs l = false ∧ hasAdj isJsWs isNl l = false

lemma stage4_adjFree :
    ∀ (l run : List Char), (∀ a ∈ run, isJsWs a = true) →
      nlAdjFree (collapseGo isJsWs nlRunRepl run l) := by
  intro l
  induction l with
  | nil =>
    intro run hrun
    by_cases hre : run.isEmpty
    · constructor <;> simp [collapseGo, hre, hasAdj]
    · rw [collapseGo, if_neg hre]
      by_cases hnl : '\n' ∈ run
      · have hnl' : run.reverse.contains '\n' = true := by simpa using hnl
        constructor <;> simp [nlRunRepl, hnl', hnl, hasAdj]
      · have hnl' : ¬ run.reverse.contains '\n' = true := by simpa using hnl
        have hno : ∀ a ∈ run.reverse, isNl a = false := by
          intro a ha
          have : a ≠ '\n' := by
            intro h; subst h
            exact hnl (List.mem_reverse.mp ha)
          simpa [isNl] using this
        constructor
        · rw [nlRunRepl, if_neg hnl']
          exact hasAdj_false_of_no_q hno
        · rw [nlRunRepl, if_neg hnl']
          exact hasAdj_false_of_no_r hno
  | cons c cs ih =>
    intro run hrun
    by_cases hc : isJsWs c = true
    · rw [collapseGo, if_pos hc]
      refine ih (c :: run) ?_
      intro a ha
      rcases List.mem_cons.mp ha with h | h
      · subst h; exact hc
      · exact hrun a h
    · rw [collapseGo, if_neg hc]
      have hcw : isJsWs c = false := by simpa using hc
      have hcnl : isNl c = false := isNl_false_of_not_ws hcw
      have ihO := ih [] (by simp)
      have hno_run : ¬ '\n' ∈ run → ∀ a ∈ run.reverse ++ [c], isNl a = false := by
        intro hnl a ha
        rcases List.mem_append.mp ha with h | h
        · have : a ≠ '\n' := by
            intro he; subst he
            exact hnl (List.mem_reverse.mp h)
          simpa [isNl] using this
        · have : a = c := by simpa using h
          subst this; exact hcnl
      constructor
      · rw [hasAdj_append_cons, Bool.or_eq_false_iff]
        refine ⟨?_, hasAdj_cons_false hcnl ihO.1⟩
        by_cases hre : run.isEmpty
        · simp [hre, hasAdj]
        · rw [if_neg hre]
          by_cases hnl : '\n' ∈ run
          · have hnl' : run.reverse.contains '\n' = true := by simpa using hnl
            simp [nlRunRepl, hnl', hnl, hasAdj, hcw]
          · have hnl' : ¬ run.reverse.contains '\n' = true := by simpa using hnl
            rw [nlRunRepl, if_neg hnl']
            exact hasAdj_false_of_no_q (hno_run hnl)
      · rw [hasAdj_append_cons, Bool.or_eq_false_iff]
        refine ⟨?_, hasAdj_cons_false hcw ihO.2⟩
        by_cases hre : run.isEmpty
        · simp [hre, hasAdj]
        · rw [if_neg hre]
          by_cases hnl : '\n' ∈ run
          · have hnl' : run.reverse.contains '\n' = true := by simpa using hnl
            simp [nlRunRepl, hnl', hnl, hasAdj, hcnl]
          · have hnl' : ¬ run.reverse.contains '\n' = true := by simpa using hnl
            rw [nlRunRepl, if_neg hnl']
            exact hasAdj_false_of_no_r (hno_run hnl)

lemma stage5_head_run :
    ∀ (cs run : List Char), run.isEmpty = false →
      (collapseGo isNonNlWs (fun _ => [' ']) run cs).head? = some ' ' := by
  intro cs
  induction cs with
  | nil =>
    intro run hrun
    simp [collapseGo, hrun]
  | cons d ds ih =>
    intro run hrun
    by_cases hd : isNonNlWs d = true
    · rw [collapseGo, if_pos hd]
      exact ih (d :: run) rfl
    · rw [collapseGo, if_neg hd]
      simp [hrun]

lemma stage5_head (cs : List Char) :
    (collapseRuns isNonNlWs (fun _ => [' ']) cs).head? =
      cs.head?.map (fun d => if isNonNlWs d then ' ' else d) := by
  cases cs with
  | nil => rfl
  | cons d ds =>
    by_cases hd : isNonNlWs d = true
    · rw [collapseRuns, collapseGo, if_pos hd]
      rw [stage5_head_run ds [d] rfl]
      simp [hd]
    · rw [collapseRuns, collapseGo, if_neg hd]
      simp [hd]

lemma p5_ws {c : Char} (h : isNonNlWs c = true) : isJsWs c = true := by
  rw [isNonNlWs, Bool.and_eq_true] at h
  exact h.1

lemma not_p5_cases {c : Char} (h : isNonNlWs c = false) :
    isJsWs c = false ∨ c = '\n' := by
  by_cases hw : isJsWs c = true
  · right
    rw [isNonNlWs, hw] at h
    simpa using h
  · left
    simpa using hw

lemma stage5_good :
    ∀ (l run : List Char), (∀ a ∈ run, isNonNlWs a = true) →
      nlAdjFree (run.reverse ++ l) →
      hasAdj isJsWs isJsWs (collapseGo isNonNlWs (fun _ => [' ']) run l) = false
      ∧ (∀ c ∈ collapseGo isNonNlWs (fun _ => [' ']) run l,
          isJsWs c = true → c = ' ' ∨ c = '\n') := by
  intro l
  induction l with
  | nil =>
    intro run hrun _
    by_cases hre : run.isEmpty
    · constructor
      · simp [collapseGo, hre, hasAdj]
      · simp [collapseGo, hre]
    · constructor
      · simp [collapseGo, hre, hasAdj]
      · intro c hc _
        rw [collapseGo, if_neg hre] at hc
        left
        simpa using hc
  | cons c cs ih =>
    intro run hrun hadj
    by_cases hc : isNonNlWs c = true
    · rw [collapseGo, if_pos hc]
      refine ih (c :: run) ?_ ?_
      · intro a ha
        rcases List.mem_cons.mp ha with h | h
        · subst h; exact hc
        · exact hrun a h
      · have : (c :: run).reverse ++ cs = run.reverse ++ c :: cs := by
          simp
        rw [this]
        exact hadj
    · rw [collapseGo, if_neg hc]
      have hcs_adj : nlAdjFree cs := by
        have hinf : cs <:+: run.reverse ++ c :: cs :=
          ⟨run.reverse ++ [c], [], by simp⟩
        exact ⟨hasAdj_false_mono hinf hadj.1, hasAdj_false_mono hinf hadj.2⟩
      have ihO := ih [] (by simp) (by simpa using hcs_adj)
      -- when the pending run is nonempty, `c` cannot be a newline: the last
      -- run character is whitespace adjacent to `c` in the original text
      have hc_run : run.isEmpty = false → c ≠ '\n' := by
        intro hre hcn
        subst hcn
        cases run with
        | nil => simp at hre
        | cons w ws =>
          have hinf : [w, '\n'] <:+: (w :: ws).reverse ++ '\n' :: cs :=
            ⟨ws.reverse, cs, by simp⟩
          have htrue : hasAdj isJsWs isNl ((w :: ws).reverse ++ '\n' :: cs) = true :=
            hasAdj_iff_adj_pair.mpr ⟨w, '\n', p5_ws (hrun w (by simp)), by simp [isNl], hinf⟩
          have hfalse := hadj.2
          rw [htrue] at hfalse
          exact absurd hfalse (by simp)
      -- when `c` is a newline, the head of the remaining output is not ws
      have hhead : c = '\n' →
          ∀ h', (collapseGo isNonNlWs (fun _ => [' ']) [] cs).head? = some h' →
            isJsWs h' = false := by
        intro hcn h' hh
        subst hcn
        cases cs with
        | nil => simp [collapseGo] at hh
        | cons d ds =>
          have hhead2 := stage5_head (d :: ds)
          rw [collapseRuns] at hhead2
          rw [hhead2] at hh
          have hh2 : (if isNonNlWs d = true then ' ' else d) = h' := by
            simpa using hh
          by_cases hd : isNonNlWs d = true
          · exfalso
            have hinf : ['\n', d] <:+: run.reverse ++ '\n' :: d :: ds :=
              ⟨run.reverse, ds, by simp⟩
            have htrue : hasAdj isNl isJsWs (run.reverse ++ '\n' :: d :: ds) = true :=
              hasAdj_iff_adj_pair.mpr ⟨'\n', d, by simp [isNl], p5_ws hd, hinf⟩
            have hfalse := hadj.1
            rw [htrue] at hfalse
            exact absurd hfalse (by simp)
          · rw [if_neg hd] at hh2
            subst hh2
            rcases not_p5_cases (by simpa using hd) with h | h
            · exact h
            · exfalso
              rw [h] at hadj
              have hinf : ['\n', '\n'] <:+: run.reverse ++ '\n' :: '\n' :: ds :=
                ⟨run.reverse, ds, by simp⟩
              have htrue : hasAdj isNl isJsWs (run.reverse ++ '\n' :: '\n' :: ds) = true :=
                hasAdj_iff_adj_pair.mpr ⟨'\n', '\n', by simp [isNl], by simp [isJsWs], hinf⟩
              have hfalse := hadj.1
              rw [htrue] at hfalse
              exact absurd hfalse (by simp)
      constructor
      · rw [hasAdj_append_cons, Bool.or_eq_false_iff]
        constructor
        · by_cases hre : run.isEmpty
          · simp [hre, hasAdj]
          · have hcnl : c ≠ '\n' := hc_run (by simpa using hre)
            have hcw : isJsWs c = false := by
              rcases not_p5_cases (by simpa using hc) with h | h
              · exact h
              · exact absurd h hcnl
            simp [hre, hasAdj, hcw]
        · by_cases hcw : isJsWs c = true
          · have hcn : c = '\n' := by
              rcases not_p5_cases (by simpa using hc) with h | h
              · rw [h] at hcw; simp at hcw
              · exact h
            rcases hO : collapseGo isNonNlWs (fun _ => [' ']) [] cs with _ | ⟨h', t'⟩
            · simp [hasAdj]
            · have hh' : isJsWs h' = false := by
                refine hhead hcn h' ?_
                rw [hO]
                rfl
              rw [hasAdj, Bool.or_eq_false_iff]
              refine ⟨by simp [hh'], ?_⟩
              rw [← hO]
              exact ihO.1
          · exact hasAdj_cons_false (by simpa using hcw) ihO.1
      · intro x hx hxw
        rcases List.mem_append.mp hx with h | h
        · by_cases hre : run.isEmpty
          · simp [hre] at h
          · left
            simpa [hre] using h
        · rcases List.mem_cons.mp h with h | h
          · subst h
            rcases not_p5_cases (by simpa using hc) with hcase | hcase
            · rw [hcase] at hxw; simp at hxw
            · right; exact hcase
          · exact ihO.2 x h hxw

lemma head?_dropWhile_false {p : Char → Bool} :
    ∀ {l : List Char} {h : Char}, (l.dropWhile p).head? = some h → p h = false := by
  intro l
  induction l with
  | nil => intro h hh; simp at hh
  | cons c cs ih =>
    intro h hh
    by_cases hc : p c = true
    · rw [List.dropWhile_cons, if_pos hc] at hh
      exact ih hh
    · rw [List.dropWhile_cons, if_neg hc] at hh
      have : c = h := by simpa using hh
      subst this
      simpa using hc

lemma dropTrailingWs_isPre (l : List Char) : dropTrailingWs l <+: l := by
  rw [dropTrailingWs]
  have h := List.reverse_prefix.mpr (List.dropWhile_suffix (l := l.reverse) isJsWs)
  simpa using h

lemma jsTrim_subseg (l : List Char) : jsTrim l <:+: l :=
  (dropTrailingWs_isPre (l.dropWhile isJsWs)).isInfix.trans
    (List.dropWhile_suffix isJsWs).isInfix

lemma head?_jsTrim {l : List Char} {h : Char}
    (hh : (jsTrim l).head? = some h) : isJsWs h = false := by
  obtain ⟨t, ht⟩ := dropTrailingWs_isPre (l.dropWhile isJsWs)
  rw [jsTrim] at hh
  refine head?_dropWhile_false (l := l) (h := h) ?_
  rw [← ht]
  cases hcase : dropTrailingWs (l.dropWhile isJsWs) with
  | nil => rw [hcase] at hh; simp at hh
  | cons x xs =>
    rw [hcase] at hh
    simpa using hh

lemma getLast?_jsTrim {l : List Char} {h : Char}
    (hh : (jsTrim l).getLast? = some h) : isJsWs h = false := by
  rw [jsTrim, dropTrailingWs, List.getLast?_reverse] at hh
  exact head?_dropWhile_false hh

lemma dropWhile_eq_self_of_head {p : Char → Bool} {l : List Char}
    (h : ∀ c, l.head? = some c → p c = false) : l.dropWhile p = l := by
  cases l with
  | nil => rfl
  | cons c cs => rw [List.dropWhile_cons, if_neg (by simp [h c rfl])]

lemma jsTrim_eq_self {l : List Char}
    (hh : ∀ h, l.head? = some h → isJsWs h = false)
    (hl : ∀ h, l.getLast? = some h → isJsWs h = false) : jsTrim l = l := by
  rw [jsTrim, dropWhile_eq_self_of_head hh, dropTrailingWs,
    dropWhile_eq_self_of_head (by
      intro c hc
      rw [List.head?_reverse] at hc
      exact hl c hc),
    List.reverse_reverse]

lemma replCRLF_eq_self : ∀ {l : List Char}, '\r' ∉ l → replCRLF l = l := by
  intro l
  induction l with
  | nil => intro _; rfl
  | cons c cs ih =>
    intro h
    cases cs with
    | nil => rfl
    | cons d ds =>
      have hc : ¬(c = '\r' ∧ d = '\n') := by
        rintro ⟨rfl, _⟩
        exact h (by simp)
      rw [replCRLF, if_neg hc]
      exact congrArg (c :: ·) (ih (fun hm => h (List.mem_cons_of_mem _ hm)))

lemma map_cr_eq_self : ∀ {l : List Char}, '\r' ∉ l →
    l.map (fun c => if c = '\r' then '\n' else c) = l := by
  intro l
  induction l with
  | nil => intro _; rfl
  | cons c cs ih =>
    intro h
    have hc : c ≠ '\r' := fun hc => h (by simp [hc])
    rw [List.map_cons, if_neg hc]
    exact congrArg (c :: ·) (ih (fun hm => h (List.mem_cons_of_mem _ hm)))

lemma isNl_ws {c : Char} (h : isNl c = true) : isJsWs c = true := by
  have : c = '\n' := by simpa [isNl] using h
  subst this
  simp [isJsWs]

lemma isSpTab_ws {c : Char} (h : isSpTab c = true) : isJsWs c = true := by
  rw [isSpTab, Bool.or_eq_true] at h
  rcases h with h | h
  · have : c = ' ' := by simpa using h
    subst this; simp [isJsWs]
  · have : c = '\t' := by simpa using h
    subst this; simp [isJsWs]

/-- `normalizeText` always lands in the normal form `goodText`. -/
theorem normalizeText_good (l : List Char) : goodText (normalizeText l) := by
  set x3 := collapseRuns isSpTab (fun _ => [' '])
    (collapseRuns isNl (fun _ => ['\n'])
      ((replCRLF l).map (fun c => if c = '\r' then '\n' else c))) with hx3
  set x4 := collapseRuns isJsWs nlRunRepl x3 with hx4
  set x5 := collapseRuns isNonNlWs (fun _ => [' ']) x4 with hx5
  have h4 : nlAdjFree x4 := stage4_adjFree x3 [] (by simp)
  have h5 := stage5_good x4 [] (by simp) (by simpa using h4)
  have hnorm : normalizeText l = jsTrim x5 := rfl
  rw [goodText, hnorm]
  refine ⟨?_, ?_, ?_, ?_⟩
  · intro c hc hcw
    exact h5.2 c ((jsTrim_subseg x5).mem hc) hcw
  · exact hasAdj_false_mono (jsTrim_subseg x5) h5.1
  · intro h hh
    exact head?_jsTrim hh
  · intro h hh
    exact getLast?_jsTrim hh

/-- On texts already in normal form, `normalizeText` is the identity. -/
theorem normalizeText_id_of_good {l : List Char} (h : goodText l) :
    normalizeText l = l := by
  obtain ⟨hW, hAdj, hHead, hLast⟩ := h
  have hcr : '\r' ∉ l := by
    intro hm
    rcases hW '\r' hm (by simp [isJsWs]) with h | h <;> simp at h
  have htab : '\t' ∉ l := by
    intro hm
    rcases hW '\t' hm (by simp [isJsWs]) with h | h <;> simp at h
  have s2 : collapseRuns isNl (fun _ => ['\n']) l = l := by
    refine collapseRuns_eq_self (hasAdj_false_pred_mono (fun c => isNl_ws)
      (fun c => isNl_ws) hAdj) ?_
    intro c _ hc
    have : c = '\n' := by simpa [isNl] using hc
    rw [this]
  have s3 : collapseRuns isSpTab (fun _ => [' ']) l = l := by
    refine collapseRuns_eq_self (hasAdj_false_pred_mono (fun c => isSpTab_ws)
      (fun c => isSpTab_ws) hAdj) ?_
    intro c hcmem hc
    rw [isSpTab, Bool.or_eq_true] at hc
    rcases hc with hc | hc
    · have : c = ' ' := by simpa using hc
      rw [this]
    · have : c = '\t' := by simpa using hc
      rw [this] at hcmem
      exact absurd hcmem htab
  have s4 : collapseRuns isJsWs nlRunRepl l = l := by
    refine collapseRuns_eq_self hAdj ?_
    intro c _ _
    rw [nlRunRepl]
    by_cases hc : c = '\n'
    · subst hc
      simp
    · rw [if_neg (by simpa using Ne.symm hc)]
  have s5 : collapseRuns isNonNlWs (fun _ => [' ']) l = l := by
    refine collapseRuns_eq_self (hasAdj_false_pred_mono (fun c => p5_ws)
      (fun c => p5_ws) hAdj) ?_
    intro c hcmem hc
    rcases hW c hcmem (p5_ws hc) with h | h
    · rw [h]
    · rw [h] at hc
      simp [isNonNlWs] at hc
  rw [normalizeText, replCRLF_eq_self hcr, map_cr_eq_self hcr, s2, s3, s4, s5,
    jsTrim_eq_self hHead hLast]

/-- **C10.** The whitespace-normalisation step of the Text Segmenter is
idempotent — `normalizeText (normalizeText s) = normalizeText s` for every
input — and its output never contains a carriage return, a tab, two
consecutive newlines, or two consecutive spaces, and has no leading or
trailing whitespace. -/
theorem C10_normalizeText_idempotent (l : List Char) :
    normalizeText (normalizeText l) = normalizeText l
    ∧ '\r' ∉ normalizeText l
    ∧ '\t' ∉ normalizeText l
    ∧ hasAdj isNl isNl (normalizeText l) = false
    ∧ hasAdj (fun c => c == ' ') (fun c => c == ' ') (normalizeText l) = false
    ∧ (∀ h, (normalizeText l).head? = some h → isJsWs h = false)
    ∧ (∀ h, (normalizeText l).getLast? = some h → isJsWs h = false) := by
  have hg := normalizeText_good l
  obtain ⟨hW, hAdj, hHead, hLast⟩ := hg
  refine ⟨normalizeText_id_of_good (normalizeText_good l), ?_, ?_, ?_, ?_, hHead, hLast⟩
  · intro hm
    rcases hW '\r' hm (by simp [isJsWs]) with h | h <;> simp at h
  · intro hm
    rcases hW '\t' hm (by simp [isJsWs]) with h | h <;> simp at h
  · exact hasAdj_false_pred_mono (fun c => isNl_ws) (fun c => isNl_ws) hAdj
  · refine hasAdj_false_pred_mono (fun c hc => ?_) (fun c hc => ?_) hAdj <;>
      · have : c = ' ' := by simpa using hc
        subst this
        simp [isJsWs]

/-- Witness for `C10_normalizeText_idempotent` on a concrete messy input. -/
theorem C10_normalizeText_idempotent_witness :
    normalizeText (normalizeText ("  a\r\n\nb\t c ".data)) =
      normalizeText ("  a\r\n\nb\t c ".data)
    ∧ normalizeText ("  a\r\n\nb\t c ".data) = "a\nb c".data :=
  ⟨(C10_normalizeText_idempotent ("  a\r\n\nb\t c ".data)).1, by decide⟩

/-! ## Text Segmenter (`src/lib/text-processing.ts`, `splitTextIntoParagraphs`)

`paraSplit` is JS `split(/\n\s*\n/)`: a match starts at a newline whose
following whitespace run contains another newline and — `\s*` being greedy —
extends to the last newline of that run.  `sentSplit` is JS
`split(/[.!?]+/)`: pieces between maximal terminator runs, keeping empty
pieces.  The sentence-packing loop (`sentLoop`) carries `currentChunk` and
`sentenceBuffer` exactly as in the source. -/

/-- Character class `[.!?]`. -/
def isTermCh (c : Char) : Bool := c == '.' || c == '!' || c == '?'

/-- `split(/\n\s*\n/)`; `fuel` bounds the scan (input length suffices since
every step consumes at least one character). -/
def paraSplitGo : Nat → List Char → List Char → List (List Char)
  | 0, acc, rest => [acc.reverse ++ rest]
  | _ + 1, acc, [] => [acc.reverse]
  | fuel + 1, acc, c :: cs =>
    if c = '\n' ∧ (cs.takeWhile isJsWs).contains '\n' then
      let run := cs.takeWhile isJsWs
      let tail := (run.reverse.takeWhile (fun d => !(d == '\n'))).length
      acc.reverse :: paraSplitGo fuel [] (cs.drop (run.length - tail))
    else paraSplitGo fuel (c :: acc) cs

/-- JS `cleanText.split(/\n\s*\n/)`. -/
def paraSplit (l : List Char) : List (List Char) :=
  paraSplitGo l.length [] l

/-- JS `section.split(/[.!?]+/)` (pieces between maximal terminator runs,
empty pieces included, as JS `String.prototype.split` produces them). -/
def sentSplitGo (delim : Bool) (acc : List Char) : List Char → List (List Char)
  | [] => if delim then [[]] else [acc.reverse]
  | c :: cs =>
    if isTermCh c then
      if delim then sentSplitGo true [] cs
      else acc.reverse :: sentSplitGo true [] cs
    else sentSplitGo false (c :: acc) cs

def sentSplit (l : List Char) : List (List Char) :=
  sentSplitGo false [] l

/-- `sentenceBuffer.join(". ")`. -/
def joinDot : List (List Char) → List Char
  | [] => []
  | [b] => b
  | b :: rest => b ++ '.' :: ' ' :: joinDot rest

/-- `Array.prototype.slice(-2)`. -/
def last2 (l : List (List Char)) : List (List Char) :=
  l.drop (l.length - 2)

/-- The sentence-packing loop (`src/lib/text-processing.ts` lines 37-67):
`cur` is `currentChunk`, `buf` is `sentenceBuffer`; returns the chunks pushed
for this section, in order.  On overflow the loop pushes `currentChunk.trim()`
(when nonempty) and restarts from the last two buffer entries; after the loop
the final `currentChunk` is pushed when nonempty and at least
`minTextLength` long. -/
def sentLoop : List (List Char) → List Char → List (List Char) → List (List Char)
  | [], cur, _ =>
    if (jsTrim cur).isEmpty = false ∧ minTextLength ≤ (jsTrim cur).length then
      [jsTrim cur]
    else []
  | s :: rest, cur, buf =>
    let s' := jsTrim s
    let buf' := buf ++ [s']
    let test := joinDot buf'
    if maxSentenceChunkLength < test.length then
      (if (jsTrim cur).isEmpty then [] else [jsTrim cur]) ++
        sentLoop rest (joinDot (last2 buf')) (last2 buf')
    else sentLoop rest test buf'

/-- Chunks produced for one over-length section from its sentence list. -/
def sentenceChunks (sentences : List (List Char)) : List (List Char) :=
  sentLoop sentences [] []

/-- Buffer-level view of `sentLoop`: the successive values of
`sentenceBuffer` at each push, in order. -/
def sentBufs : List (List Char) → List (List Char) → List (List (List Char))
  | [], buf =>
    if (jsTrim (joinDot buf)).isEmpty = false
        ∧ minTextLength ≤ (jsTrim (joinDot buf)).length then
      [buf]
    else []
  | s :: rest, buf =>
    let buf' := buf ++ [jsTrim s]
    if maxSentenceChunkLength < (joinDot buf').length then
      (if (jsTrim (joinDot buf)).isEmpty then [] else [buf]) ++
        sentBufs rest (last2 buf')
    else sentBufs rest buf'

/-- Adjacent emitted buffers overlap in exactly one sentence: each buffer
starts with the last sentence of the previous one. -/
def consecOverlapB : List (List (List Char)) → Bool
  | B₁ :: B₂ :: rest => (B₂.head? == B₁.getLast?) && consecOverlapB (B₂ :: rest)
  | _ => true

/-! ### Metadata matchers for `addContextualInfo`
(`src/lib/text-processing.ts` lines 100-135 and `extractMetadata` lines
154-205).  Each `hasX` decides whether the corresponding global regex has at
least one match; regex quantifier choices are enumerated explicitly (finitely
many), `\s*` before a digit is resolved greedily (consuming the whole
whitespace run is the only way a digit can follow), and `\b` is the usual
word/non-word boundary with `\w = [A-Za-z0-9_]`. -/

def isDigitCh (c : Char) : Bool := '0' ≤ c && c ≤ '9'

def isAlphaCh (c : Char) : Bool := ('a' ≤ c && c ≤ 'z') || ('A' ≤ c && c ≤ 'Z')

/-- JS regex `\w`. -/
def isWordCh (c : Char) : Bool := isAlphaCh c || isDigitCh c || c == '_'

/-- Consume exactly `n` digits. -/
def takeDigits : Nat → List Char → Option (List Char)
  | 0, l => some l
  | _ + 1, [] => none
  | n + 1, c :: cs => if isDigitCh c then takeDigits n cs else none

/-- Both continuations of `\.?`. -/
def optDot (l : List Char) : List (List Char) :=
  match l with
  | '.' :: cs => [cs, l]
  | _ => [l]

/-- `\.?\s*\d{2,4}\b`. -/
def dateTail2 (l : List Char) : Bool :=
  (optDot l).any fun l₁ =>
    let l₂ := l₁.dropWhile isJsWs
    [2, 3, 4].any fun k =>
      match takeDigits k l₂ with
      | none => false
      | some [] => true
      | some (d :: _) => !(isWordCh d)

/-- `\.?\s*\d{1,2}` followed by `dateTail2`. -/
def dateTail1 (l : List Char) : Bool :=
  (optDot l).any fun l₁ =>
    let l₂ := l₁.dropWhile isJsWs
    [1, 2].any fun k =>
      match takeDigits k l₂ with
      | none => false
      | some rest => dateTail2 rest

/-- First alternative `\d{1,2}\.?\s*\d{1,2}\.?\s*\d{2,4}\b` (after `\b`). -/
def dateAlt1 (l : List Char) : Bool :=
  [1, 2].any fun k =>
    match takeDigits k l with
    | none => false
    | some rest => dateTail1 rest

/-- Second alternative `\d{1,2}\.\d{1,2}\.\d{4}\b` (after `\b`). -/
def dateAlt2 (l : List Char) : Bool :=
  [1, 2].any fun k₁ =>
    match takeDigits k₁ l with
    | some ('.' :: r₁) =>
      [1, 2].any fun k₂ =>
        match takeDigits k₂ r₁ with
        | some ('.' :: r₂) =>
          (match takeDigits 4 r₂ with
            | none => false
            | some [] => true
            | some (d :: _) => !(isWordCh d))
        | _ => false
    | _ => false

/-- Scan for a match of the date regex; `prev` is the previous character
(for the leading `\b`). -/
def hasDateScan : Option Char → List Char → Bool
  | _, [] => false
  | prev, c :: cs =>
    ((match prev with | none => true | some p => !(isWordCh p)) &&
      (dateAlt1 (c :: cs) || dateAlt2 (c :: cs))) ||
    hasDateScan (some c) cs

def hasDate (l : List Char) : Bool := hasDateScan none l

/-- Local-part character class `[a-zA-Z0-9._%+-]` of the email regex. -/
def isEmailLocal (c : Char) : Bool :=
  isAlphaCh c || isDigitCh c || c == '.' || c == '_' || c == '%' || c == '+' || c == '-'

/-- Domain character class `[a-zA-Z0-9.-]`. -/
def isEmailDomain (c : Char) : Bool :=
  isAlphaCh c || isDigitCh c || c == '.' || c == '-'

/-- After `@`: `[a-zA-Z0-9.-]+\.[a-zA-Z]{2,}`; `hadB` records whether at
least one domain character has been consumed. -/
def emailAfterAt : Bool → List Char → Bool
  | _, [] => false
  | hadB, c :: cs =>
    (hadB && c == '.' &&
      (match cs with
        | a :: b :: _ => isAlphaCh a && isAlphaCh b
        | _ => false)) ||
    (isEmailDomain c && emailAfterAt true cs)

def hasEmailScan : Option Char → List Char → Bool
  | _, [] => false
  | prev, c :: cs =>
    (c == '@' &&
      (match prev with | some p => isEmailLocal p | none => false) &&
      emailAfterAt false cs) ||
    hasEmailScan (some c) cs

def hasEmail (l : List Char) : Bool := hasEmailScan none l

/-- Both continuations of `[\s\-]?`. -/
def optSep (l : List Char) : List (List Char) :=
  match l with
  | c :: cs => if isJsWs c || c == '-' then [cs, c :: cs] else [c :: cs]
  | [] => [[]]

/-- `([\s\-]?\d{1,4})` repeated `n` times. -/
def phoneSepGroups : Nat → List Char → Bool
  | 0, _ => true
  | n + 1, l =>
    (optSep l).any fun l₁ =>
      [1, 2, 3, 4].any fun k =>
        match takeDigits k l₁ with
        | none => false
        | some rest => phoneSepGroups n rest

/-- `[1-9]\d{1,4}` then three separated digit groups. -/
def phoneCore : List Char → Bool
  | [] => false
  | c :: cs =>
    ('1' ≤ c && c ≤ '9') &&
      [1, 2, 3, 4].any fun k =>
        match takeDigits k cs with
        | none => false
        | some rest => phoneSepGroups 3 rest

/-- `(?:\+49|0)` then `phoneCore`. -/
def phoneLead (l : List Char) : Bool :=
  match l with
  | '+' :: '4' :: '9' :: r => phoneCore r
  | '0' :: r => phoneCore r
  | _ => false

def hasPhoneScan : List Char → Bool
  | [] => false
  | c :: cs => phoneLead (c :: cs) || hasPhoneScan cs

def hasPhone (l : List Char) : Bool := hasPhoneScan l

/-- JS `toLowerCase` restricted to ASCII and Latin-1 letters (the alphabet
appearing in this pipeline's keyword lists and inputs). -/
def jsToLower (c : Char) : Char :=
  if 'A' ≤ c && c ≤ 'Z' then Char.ofNat (c.toNat + 32)
  else if ('À' ≤ c && c ≤ 'Þ') && !(c == '×') then Char.ofNat (c.toNat + 32)
  else c

def lowerL (l : List Char) : List Char := l.map jsToLower

/-- `needle` is a leading segment of `hay`. -/
def leadsWith : List Char → List Char → Bool
  | [], _ => true
  | _ :: _, [] => false
  | a :: as, b :: bs => a == b && leadsWith as bs

/-- Substring test (JS `String.prototype.includes`). -/
def containsSeg (needle hay : List Char) : Bool :=
  match hay with
  | [] => needle.isEmpty
  | _ :: t => leadsWith needle hay || containsSeg needle t

/-- Existence of a match of ``[^.!?]*kw[^.!?]*[.!?]``: an occurrence of the
keyword with some sentence terminator after it (the first terminator after
the occurrence completes the match). -/
def kwThenTerm (needle : List Char) : List Char → Bool
  | [] => false
  | c :: cs =>
    (leadsWith needle (c :: cs) && ((c :: cs).drop needle.length).any isTermCh) ||
    kwThenTerm needle cs

/-- `text.processing.deadlineKeywords` from `src/lib/config.json` plus the
extra keywords appended in `extractMetadata` (the source file literally
contains the mojibake spelling `spÃ¤testens` in the appended list). -/
def deadlineKeywordsAll : List (List Char) :=
  ["frist".data, "deadline".data, "abgabe".data, "einreichung".data,
   "bis zum".data, "spätestens".data,
   "termin".data, "zeitpunkt".data, "datum".data, "bis".data,
   "spÃ¤testens".data, "ende".data, "ablauf".data]

/-- `metadata.deadlines` is nonempty (regex flags `gi`: case-insensitive). -/
def hasDeadline (l : List Char) : Bool :=
  deadlineKeywordsAll.any fun kw => kwThenTerm (lowerL kw) (lowerL l)

/-- `addContextualInfo` (`src/lib/text-processing.ts` lines 100-135): prepend
bracketed category markers based on detected metadata and keywords; each
applicable marker is prepended in source order, so the last test ends up
leftmost. -/
def addContextualInfo (chunk : List Char) : List Char :=
  let e1 := chunk
  let e2 := if hasDate chunk then "[TERMINE/FRISTEN] ".data ++ e1 else e1
  let e3 := if hasEmail chunk || hasPhone chunk then "[KONTAKT] ".data ++ e2 else e2
  let e4 := if hasDeadline chunk then "[FRISTEN] ".data ++ e3 else e3
  let e5 :=
    if containsSeg "einreichung".data (lowerL chunk)
        || containsSeg "abgabe".data (lowerL chunk) then
      "[EINREICHUNG] ".data ++ e4
    else e4
  let e6 :=
    if containsSeg "elektronisch".data (lowerL chunk)
        || containsSeg "schriftlich".data (lowerL chunk) then
      "[EINREICHUNGSFORM] ".data ++ e5
    else e5
  if containsSeg "bewertung".data (lowerL chunk)
      || containsSeg "kriterien".data (lowerL chunk) then
    "[BEWERTUNG] ".data ++ e6
  else e6

/-- `splitTextIntoParagraphs` (`src/lib/text-processing.ts` lines 9-95):
normalise, split into sections on blank-line boundaries, keep short sections
whole, re-split over-length sections by sentences with the packing loop,
then trim, filter by minimum length and tag each surviving chunk. -/
def splitTextIntoParagraphs (l : List Char) : List (List Char) :=
  let cleanText := normalizeText l
  let sections := (paraSplit cleanText).filter
    (fun s => minTextLength ≤ (jsTrim s).length)
  let chunks := (sections.map (fun sec =>
    if sec.length ≤ maxParagraphLength then [jsTrim sec]
    else sentenceChunks
      ((sentSplit sec).filter (fun s => 0 < (jsTrim s).length)))).flatten
  ((chunks.map jsTrim).filter (fun c => minTextLength ≤ c.length)).map
    addContextualInfo

lemma jsTrim_idem (l : List Char) : jsTrim (jsTrim l) = jsTrim l :=
  jsTrim_eq_self (fun _ hh => head?_jsTrim hh) (fun _ hh => getLast?_jsTrim hh)

lemma length_le_addContextualInfo (chunk : List Char) :
    chunk.length ≤ (addContextualInfo chunk).length := by
  rw [addContextualInfo]
  repeat' split
  all_goals
    try simp only [List.length_append]
  all_goals omega

lemma min_length_splitTextIntoParagraphs (l : List Char) :
    ∀ c ∈ splitTextIntoParagraphs l, minTextLength ≤ c.length := by
  intro c hc
  rw [splitTextIntoParagraphs] at hc
  simp only [List.mem_map, List.mem_filter] at hc
  obtain ⟨b, ⟨_, hlen⟩, rfl⟩ := hc
  exact (by simpa using hlen : minTextLength ≤ b.length).trans
    (length_le_addContextualInfo b)

lemma sentLoop_eq_sentBufs :
    ∀ (sents buf : List (List Char)),
      sentLoop sents (joinDot buf) buf =
        (sentBufs sents buf).map (fun B => jsTrim (joinDot B)) := by
  intro sents
  induction sents with
  | nil =>
    intro buf
    rw [sentLoop, sentBufs]
    by_cases h : (jsTrim (joinDot buf)).isEmpty = false
        ∧ minTextLength ≤ (jsTrim (joinDot buf)).length
    · rw [if_pos h, if_pos h]; rfl
    · rw [if_neg h, if_neg h]; rfl
  | cons s rest ih =>
    intro buf
    rw [sentLoop, sentBufs]
    by_cases h : maxSentenceChunkLength < (joinDot (buf ++ [jsTrim s])).length
    · rw [if_pos h, if_pos h, List.map_append]
      congr 1
      · by_cases he : (jsTrim (joinDot buf)).isEmpty
        · rw [if_pos he, if_pos he]; rfl
        · rw [if_neg he, if_neg he]; rfl
      · exact ih (last2 (buf ++ [jsTrim s]))
    · rw [if_neg h, if_neg h]
      exact ih (buf ++ [jsTrim s])

lemma sentenceChunks_eq_sentBufs (sents : List (List Char)) :
    sentenceChunks sents = (sentBufs sents []).map (fun B => jsTrim (joinDot B)) := by
  have h := sentLoop_eq_sentBufs sents []
  simpa [sentenceChunks, joinDot] using h

lemma head?_append_of_ne_nil {α : Type} {u v : List α} (h : u ≠ []) :
    (u ++ v).head? = u.head? := by
  cases u with
  | nil => exact absurd rfl h
  | cons c cs => rfl

lemma head?_joinDot {b : List Char} {rest : List (List Char)} (hb : b ≠ []) :
    (joinDot (b :: rest)).head? = b.head? := by
  cases rest with
  | nil => rfl
  | cons r rs =>
    have hjd : joinDot (b :: r :: rs) = b ++ '.' :: ' ' :: joinDot (r :: rs) := rfl
    rw [hjd]
    exact head?_append_of_ne_nil hb

lemma mem_dropWhile_of_not {p : Char → Bool} {l : List Char} {c : Char}
    (hc : c ∈ l) (hpc : p c = false) : c ∈ l.dropWhile p := by
  have hsplit : l.takeWhile p ++ l.dropWhile p = l :=
    List.takeWhile_append_dropWhile p l
  rcases List.mem_append.mp (by rw [hsplit]; exact hc) with h | h
  · have := List.mem_takeWhile_imp h
    rw [this] at hpc
    simp at hpc
  · exact h

lemma jsTrim_isEmpty_false {l : List Char} {c : Char} (hc : c ∈ l)
    (hw : isJsWs c = false) : (jsTrim l).isEmpty = false := by
  rw [jsTrim, dropTrailingWs]
  have h1 : c ∈ l.dropWhile isJsWs := mem_dropWhile_of_not hc hw
  have h2 : c ∈ (l.dropWhile isJsWs).reverse := List.mem_reverse.mpr h1
  have h3 : c ∈ ((l.dropWhile isJsWs).reverse).dropWhile isJsWs :=
    mem_dropWhile_of_not h2 hw
  have h4 : ((l.dropWhile isJsWs).reverse).dropWhile isJsWs ≠ [] := by
    intro he
    rw [he] at h3
    simp at h3
  cases hcase : ((l.dropWhile isJsWs).reverse).dropWhile isJsWs with
  | nil => exact absurd hcase h4
  | cons x xs => simp [hcase]

lemma trimmed_head_not_ws {b : List Char} (hb : jsTrim b = b) {h : Char}
    (hh : b.head? = some h) : isJsWs h = false := by
  refine head?_jsTrim (l := b) ?_
  rw [hb]
  exact hh

lemma jsTrim_joinDot_isEmpty_false {buf : List (List Char)} (hne : buf ≠ [])
    (helems : ∀ b ∈ buf, jsTrim b = b ∧ b ≠ []) :
    (jsTrim (joinDot buf)).isEmpty = false := by
  cases buf with
  | nil => exact absurd rfl hne
  | cons b rest =>
    obtain ⟨hbt, hbne⟩ := helems b (by simp)
    cases b with
    | nil => exact absurd rfl hbne
    | cons x xs =>
      have hx : isJsWs x = false := trimmed_head_not_ws hbt rfl
      have hxmem : x ∈ joinDot ((x :: xs) :: rest) := by
        cases rest with
        | nil => simp [joinDot]
        | cons r rs => simp [joinDot]
      exact jsTrim_isEmpty_false hxmem hx

lemma drop_pred_eq_getLast? :
    ∀ (buf : List (List Char)) (g : List Char), buf.getLast? = some g →
      buf.drop (buf.length - 1) = [g] := by
  intro buf
  induction buf with
  | nil => intro g hg; simp at hg
  | cons b bs ih =>
    intro g hg
    cases bs with
    | nil =>
      have : b = g := by simpa using hg
      subst this
      rfl
    | cons c cs =>
      have hg' : (c :: cs).getLast? = some g := by
        rw [List.getLast?_cons_cons] at hg
        exact hg
      have hlen : (b :: c :: cs).length - 1 = (c :: cs).length := by simp
      rw [hlen]
      have : (b :: c :: cs).drop ((c :: cs).length) = (c :: cs).drop ((c :: cs).length - 1) := by
        simp [List.drop]
      rw [this]
      exact ih g hg'

lemma last2_snoc {buf : List (List Char)} {x g : List Char}
    (hg : buf.getLast? = some g) : last2 (buf ++ [x]) = [g, x] := by
  have hb : buf ≠ [] := by
    rintro rfl
    simp at hg
  rw [last2]
  have h1 : (buf ++ [x]).length - 2 = buf.length - 1 := by
    have h2 : (buf ++ [x]).length = buf.length + 1 := by simp
    omega
  rw [h1, List.drop_append_of_le_length (by
    have := List.length_pos.mpr hb
    omega), drop_pred_eq_getLast? buf g hg]
  rfl

lemma infix_append_of_suffix {u v w : List (List Char)} (h : u <:+ v) :
    u ++ w <:+: v ++ w := by
  obtain ⟨t, rfl⟩ := h
  exact ⟨t, [], by simp⟩

lemma sentBufs_props :
    ∀ (sents buf : List (List Char)),
      (∀ s ∈ sents, (jsTrim s).isEmpty = false) →
      (∀ b ∈ buf, jsTrim b = b ∧ b ≠ []) →
      consecOverlapB (sentBufs sents buf) = true
      ∧ (∀ B, (sentBufs sents buf).head? = some B → buf ≠ [] → B.head? = buf.head?)
      ∧ (∀ B ∈ sentBufs sents buf, B <:+: buf ++ sents.map jsTrim) := by
  intro sents
  induction sents with
  | nil =>
    intro buf _ _
    rw [sentBufs]
    by_cases h : (jsTrim (joinDot buf)).isEmpty = false
        ∧ minTextLength ≤ (jsTrim (joinDot buf)).length
    · rw [if_pos h]
      refine ⟨rfl, ?_, ?_⟩
      · intro B hB _
        have hBb : buf = B := by simpa using hB
        rw [← hBb]
      · intro B hB
        have hBb : B = buf := by simpa using hB
        subst hBb
        exact ⟨[], [], by simp⟩
    · rw [if_neg h]
      refine ⟨rfl, ?_, ?_⟩
      · intro B hB _
        simp at hB
      · intro B hB
        simp at hB
  | cons s rest ih =>
    intro buf hs hb
    have hst : (jsTrim s).isEmpty = false := hs s (by simp)
    have hsne : jsTrim s ≠ [] := by
      intro he; rw [he] at hst; simp at hst
    have hsrest : ∀ t ∈ rest, (jsTrim t).isEmpty = false :=
      fun t ht => hs t (List.mem_cons_of_mem _ ht)
    have hbuf' : ∀ b ∈ buf ++ [jsTrim s], jsTrim b = b ∧ b ≠ [] := by
      intro b hbm
      rcases List.mem_append.mp hbm with h | h
      · exact hb b h
      · have hbs : b = jsTrim s := by simpa using h
        subst hbs
        exact ⟨jsTrim_idem s, hsne⟩
    rw [sentBufs]
    by_cases hov : maxSentenceChunkLength < (joinDot (buf ++ [jsTrim s])).length
    · rw [if_pos hov]
      by_cases hbe : buf = []
      · subst hbe
        have hemp : (jsTrim (joinDot ([] : List (List Char)))).isEmpty = true := rfl
        rw [if_pos hemp]
        have hl2 : last2 ([] ++ [jsTrim s]) = [jsTrim s] := rfl
        rw [hl2]
        have hE := ih [jsTrim s] hsrest (by
          intro b hbm
          have hbs : b = jsTrim s := by simpa using hbm
          subst hbs
          exact ⟨jsTrim_idem s, hsne⟩)
        refine ⟨by simpa using hE.1, ?_, ?_⟩
        · intro B _ hne
          exact absurd rfl hne
        · intro B hB
          have := hE.2.2 B (by simpa using hB)
          simpa using this
      · have hpush := jsTrim_joinDot_isEmpty_false hbe hb
        rw [if_neg (by simp [hpush])]
        obtain ⟨g, hg⟩ := Option.isSome_iff_exists.mp (List.getLast?_isSome.mpr hbe)
        have hl2 : last2 (buf ++ [jsTrim s]) = [g, jsTrim s] := last2_snoc hg
        rw [hl2]
        have hgmem : g ∈ buf := by
          rw [List.getLast?_eq_head?_reverse] at hg
          have := List.mem_of_mem_head? hg
          exact List.mem_reverse.mp this
        have hE := ih [g, jsTrim s] hsrest (by
          intro b hbm
          rcases List.mem_cons.mp hbm with h | h
          · rw [h]
            exact hb g hgmem
          · have hbs : b = jsTrim s := by simpa using h
            rw [hbs]
            exact ⟨jsTrim_idem s, hsne⟩)
        refine ⟨?_, ?_, ?_⟩
        · cases hEe : sentBufs rest [g, jsTrim s] with
          | nil => rfl
          | cons B₂ E' =>
            have hchain := hE.1
            rw [hEe] at hchain
            have hhead : B₂.head? = some g := by
              have := hE.2.1 B₂ (by rw [hEe]; rfl) (by simp)
              simpa using this
            have hcons : consecOverlapB ([buf] ++ B₂ :: E') =
                ((B₂.head? == buf.getLast?) && consecOverlapB (B₂ :: E')) := rfl
            rw [hcons, hchain, hhead, hg]
            simp
        · intro B hB _
          have hBb : buf = B := by
            have hh : ([buf] ++ sentBufs rest [g, jsTrim s]).head? = some buf := rfl
            rw [hh] at hB
            simpa using hB
          rw [← hBb]
        · intro B hB
          rcases List.mem_append.mp hB with h | h
          · have hBb : B = buf := by simpa using h
            subst hBb
            exact ⟨[], (s :: rest).map jsTrim, by simp⟩
          · have hBi := hE.2.2 B h
            have hsuf : [g] <:+ buf := by
              rw [← drop_pred_eq_getLast? buf g hg]
              exact List.drop_suffix _ _
            have hstep : [g] ++ (jsTrim s :: rest.map jsTrim) <:+:
                buf ++ (jsTrim s :: rest.map jsTrim) := infix_append_of_suffix hsuf
            have hBi' : B <:+: [g] ++ (jsTrim s :: rest.map jsTrim) := by
              simpa using hBi
            have := hBi'.trans hstep
            simpa using this
    · rw [if_neg hov]
      have hIH := ih (buf ++ [jsTrim s]) hsrest hbuf'
      refine ⟨hIH.1, ?_, ?_⟩
      · intro B hB hne
        have hh := hIH.2.1 B hB (by simp)
        rw [hh]
        exact head?_append_of_ne_nil hne
      · intro B hB
        have := hIH.2.2 B hB
        simpa [List.append_assoc] using this

/-- Concrete over-length section: four 300-character sentences. -/
def cexText : List Char :=
  List.replicate 300 'a' ++ '.' :: ' ' :: List.replicate 300 'b' ++ '.' :: ' ' ::
    List.replicate 300 'c' ++ '.' :: ' ' :: List.replicate 300 'd' ++ ['.']

def cexChunk1 : List Char :=
  List.replicate 300 'a' ++ '.' :: ' ' :: List.replicate 300 'b'

def cexChunk2 : List Char :=
  List.replicate 300 'b' ++ '.' :: ' ' :: List.replicate 300 'c'

def cexChunk3 : List Char :=
  List.replicate 300 'c' ++ '.' :: ' ' :: List.replicate 300 'd'

/-- **C3, counterexample.** On a four-sentence over-length section the
emitted sub-chunks are `a…a. b…b`, `b…b. c…c`, `c…c. d…d`: the second chunk
does not contain the first chunk's second-to-last sentence `a…a` at all, so
the overlap between consecutive sub-chunks is the trailing **one** sentence
of the prior sub-chunk (here `b…b`), not the trailing two sentences as the
claim states. -/
theorem C3_text_segmenter_counterexample :
    splitTextIntoParagraphs cexText = [cexChunk1, cexChunk2, cexChunk3]
    ∧ containsSeg (List.replicate 300 'a') cexChunk2 = false
    ∧ containsSeg (List.replicate 300 'b') cexChunk2 = true := by
  refine ⟨by decide, by decide, by decide⟩

/-- **C3 (amended).** Every chunk returned by `splitTextIntoParagraphs` has
length at least `minTextLength`; the sentence-packing loop's emitted chunks
are the trimmed joins of its successive sentence buffers; for sentences with
nonempty trim (as produced by the loop's input filter) each emitted buffer
after the first starts with the **last** sentence of the previous buffer
(one-sentence overlap — the retained `slice(-2)` is that sentence plus the
overflow-triggering one), and every emitted buffer is a contiguous run of
the trimmed sentence sequence. -/
theorem C3_text_segmenter_amended :
    (∀ l : List Char, ∀ c ∈ splitTextIntoParagraphs l, minTextLength ≤ c.length)
    ∧ (∀ sents : List (List Char),
        sentenceChunks sents = (sentBufs sents []).map (fun B => jsTrim (joinDot B)))
    ∧ (∀ sents : List (List Char),
        (∀ s ∈ sents, (jsTrim s).isEmpty = false) →
          consecOverlapB (sentBufs sents []) = true
          ∧ ∀ B ∈ sentBufs sents [], B <:+: sents.map jsTrim) := by
  refine ⟨min_length_splitTextIntoParagraphs, sentenceChunks_eq_sentBufs, ?_⟩
  intro sents hs
  have h := sentBufs_props sents [] hs (by simp)
  refine ⟨h.1, ?_⟩
  intro B hB
  have := h.2.2 B hB
  simpa using this

/-- Witness for `C3_text_segmenter_amended` on two concrete sentences. -/
theorem C3_text_segmenter_amended_witness :
    (∀ s ∈ ["Aa".data, "Bb".data], (jsTrim s).isEmpty = false)
    ∧ consecOverlapB (sentBufs ["Aa".data, "Bb".data] []) = true :=
  ⟨by decide, (C3_text_segmenter_amended.2.2 ["Aa".data, "Bb".data] (by decide)).1⟩

/-! ## Query Classifier (`src/lib/extraction.ts` lines 60-84, `detectQueryType`) -/

inductive QueryType
  | question
  | condition
deriving DecidableEq, Repr

/-- `ai.claude.conditionKeywords` from `src/lib/config.json`. -/
def conditionKeywords : List String :=
  ["ist", "sind", "hat", "haben", "kann", "können", "soll", "sollen",
   "muss", "müssen", "darf", "dürfen", "wird", "werden", "vor dem",
   "nach dem", "bis zum", "ab dem", "erlaubt", "zulässig", "möglich",
   "erforderlich", "notwendig", "verfügbar", "vorhanden"]

/-- `input.toLowerCase()`. -/
def lowercaseStr (s : String) : String := ⟨s.data.map jsToLower⟩

/-- `lowercaseInput.includes(keyword)`. -/
def hasConditionKeyword (input : String) : Bool :=
  conditionKeywords.any fun kw => containsSeg kw.data (lowercaseStr input).data

/-- The interrogative lead words of the regex
`/^(wer|was|wann|wo|wie|warum|welche|welcher|welches|wessen|wem|wen)/i`. -/
def interrogatives : List String :=
  ["wer", "was", "wann", "wo", "wie", "warum", "welche", "welcher",
   "welches", "wessen", "wem", "wen"]

/-- `/^(...)/i.test(input)`: the input starts, case-insensitively, with one
of the interrogative words. -/
def hasQuestionWord (input : String) : Bool :=
  interrogatives.any fun w => leadsWith (lowerL w.data) (lowerL input.data)

/-- `input.trim().endsWith("?")`. -/
def endsWithQuestionMark (input : String) : Bool :=
  (jsTrim input.data).getLast? == some '?'

/-- `detectQueryType`: `condition` iff a condition keyword is present, no
interrogative lead word, and no trailing question mark; otherwise
`question`. -/
def detectQueryType (input : String) : QueryType :=
  if hasConditionKeyword input ∧ ¬ hasQuestionWord input
      ∧ ¬ endsWithQuestionMark input then
    QueryType.condition
  else QueryType.question

/-- **C4.** `detectQueryType` returns `condition` iff the input contains a
configured condition keyword AND does not start with an interrogative word
AND does not end (after trimming) with a question mark, `question`
otherwise; `"Ist die Abgabefrist vor dem 31.12.2025?"` and
`"Sind elektronische Einreichungen erlaubt?"` are questions (the
question-mark rule dominates), `"Die Frist endet am 1.1."` is a condition. -/
theorem C4_query_classifier :
    (∀ input : String,
      detectQueryType input = QueryType.condition ↔
        (hasConditionKeyword input = true ∧ hasQuestionWord input = false
          ∧ endsWithQuestionMark input = false))
    ∧ detectQueryType "Ist die Abgabefrist vor dem 31.12.2025?" = QueryType.question
    ∧ detectQueryType "Sind elektronische Einreichungen erlaubt?" = QueryType.question
    ∧ detectQueryType "Die Frist endet am 1.1." = QueryType.condition := by
  refine ⟨?_, by decide, by decide, by decide⟩
  intro input
  rw [detectQueryType]
  split_ifs with hcond
  · obtain ⟨h1, h2, h3⟩ := hcond
    constructor
    · intro _
      exact ⟨h1, by simpa using h2, by simpa using h3⟩
    · intro _
      rfl
  · constructor
    · intro h
      exact h.elim
    · rintro ⟨h1, h2, h3⟩
      exact absurd ⟨h1, by simp [h2], by simp [h3]⟩ hcond

/-! ## Per-file session ids (`src/lib/extraction.ts` lines 38-44) -/

/-- `filename.replace(/[^a-zA-Z0-9]/g, "_")`. -/
def sanitizeFilename (f : String) : String :=
  ⟨f.data.map fun c => if isAlphaCh c || isDigitCh c then c else '_'⟩

/-- `generateFileSessionId`: base run session id plus sanitized filename. -/
def generateFileSessionId (baseSessionId filename : String) : String :=
  baseSessionId ++ "_" ++ sanitizeFilename filename

/-- **C5, counterexample.** The sanitization is not injective: the distinct
filenames `"a.pdf"` and `"a_pdf"` produce the same per-file session id, so
two documents can share an index namespace within one run. -/
theorem C5_session_id_counterexample :
    generateFileSessionId "session-1700000000000-abc123xyz" "a.pdf" =
      generateFileSessionId "session-1700000000000-abc123xyz" "a_pdf"
    ∧ ("a.pdf" : String) ≠ "a_pdf" := by
  refine ⟨by decide, by decide⟩

/-- **C5 (amended).** Session ids derived from the same base id are distinct
whenever the *sanitized* filenames are distinct (the map
`filename ↦ filename.replace(/[^a-zA-Z0-9]/g, "_")` can collide, so
distinctness of raw filenames is not enough). -/
theorem C5_session_id_amended (base f g : String)
    (h : sanitizeFilename f ≠ sanitizeFilename g) :
    generateFileSessionId base f ≠ generateFileSessionId base g := by
  intro he
  apply h
  have hd := congrArg String.data he
  rw [generateFileSessionId, generateFileSessionId] at hd
  rw [String.data_append, String.data_append, String.data_append,
    String.data_append] at hd
  rw [List.append_assoc, List.append_assoc] at hd
  have h2 := List.append_cancel_left hd
  have h3 := List.append_cancel_left h2
  exact String.ext h3

/-- Witness for `C5_session_id_amended` at concrete filenames. -/
theorem C5_session_id_amended_witness :
    sanitizeFilename "a.pdf" ≠ sanitizeFilename "b.pdf"
    ∧ generateFileSessionId "session-1" "a.pdf" ≠
        generateFileSessionId "session-1" "b.pdf" :=
  ⟨by decide, C5_session_id_amended "session-1" "a.pdf" "b.pdf" (by decide)⟩

/-! ## Orchestration layer (`src/lib/extraction.ts`, `parseDocuments`) and the
embeddings module

Remote collaborators are oracles: `populateRes` is the outcome of
`storeEmbeddings` for a document, `search f q` the outcome of
`searchRelevantChunks(q, fileSessionId(f))`, `synth` the outcome of
`answerQuestion`, `destroyRes` the outcome of the vector-index `reset`
inside `cleanupEmbeddings`.  `Except.error` models a thrown exception.
Similarity scores are modelled as rationals. -/

structure VectorSearchResult where
  id : String
  score : Rat
  text : String
  filename : String
deriving DecidableEq

structure QuestionAnswer where
  query : String
  answer : String
  confidence : Rat
  sources : List String
  qtype : QueryType
  debugChunks : List VectorSearchResult
  debugContext : List String
deriving DecidableEq

structure FileResult where
  filename : String
  answers : List QuestionAnswer
deriving DecidableEq

/-- JS `x || 0` on a number; on similarity scores this maps a falsy `0` to
`0` and leaves every other value unchanged. -/
def jsOrZero (x : Rat) : Rat := if x = 0 then 0 else x

/-- JS `text || ""` on a string. -/
def jsOrEmpty (s : String) : String := if s = "" then "" else s

/-- One iteration of the per-file query loop (`src/lib/extraction.ts` lines
295-377): classify, search, synthesize; a thrown search or synthesis error
is caught and yields the placeholder answer with confidence 0. -/
def processOneQuery (filename query : String)
    (searchRes : Except String (List VectorSearchResult))
    (synthRes : Except String String) : QuestionAnswer :=
  match searchRes with
  | Except.error _ =>
    { query := query
      answer := "Error: Unable to process this query due to processing error."
      confidence := 0
      sources := [filename]
      qtype := detectQueryType query
      debugChunks := []
      debugContext := [] }
  | Except.ok relevantChunks =>
    match synthRes with
    | Except.error _ =>
      { query := query
        answer := "Error: Unable to process this query due to processing error."
        confidence := 0
        sources := [filename]
        qtype := detectQueryType query
        debugChunks := []
        debugContext := [] }
    | Except.ok answer =>
      { query := query
        answer := answer
        confidence :=
          match relevantChunks with
          | [] => 0
          | c :: _ => jsOrZero c.score
        sources := [filename]
        qtype := detectQueryType query
        debugChunks := relevantChunks
        debugContext := relevantChunks.map (fun c => jsOrEmpty c.text) }

/-- Calls made while processing one document, tagged per document. -/
inductive DocEvent
  | storeCall
  | queryCall (q : String)
  | destroyCall
deriving DecidableEq

/-- The per-file query loop: answers and the search calls it issues, both in
input order. -/
def queryLoop (filename : String)
    (search : String → Except String (List VectorSearchResult))
    (synth : String → Except String String) :
    List String → List QuestionAnswer × List DocEvent
  | [] => ([], [])
  | q :: rest =>
    let a := processOneQuery filename q (search q) (synth q)
    let r := queryLoop filename search synth rest
    (a :: r.1, DocEvent.queryCall q :: r.2)

/-- `cleanupEmbeddings` (embeddings module): the vector-index `reset` runs
inside `try/catch`; a failure is logged and swallowed, so the call always
returns normally. -/
def cleanupEmbeddings (resetRes : Except String Unit) : Except String Unit :=
  match resetRes with
  | Except.ok _ => Except.ok ()
  | Except.error _ => Except.ok ()

/-- Processing of one document after its chunks are embedded
(`src/lib/extraction.ts` lines 273-389): store embeddings (a throw
propagates), answer each query in order (per-query errors caught), then
clean up the file session unconditionally. -/
def docFlow (filename : String) (queries : List String)
    (populateRes : Except String Unit)
    (search : String → Except String (List VectorSearchResult))
    (synth : String → Except String String)
    (destroyRes : Except String Unit) :
    Except String (List QuestionAnswer) × List DocEvent :=
  match populateRes with
  | Except.error _ => (Except.error "Failed to store embeddings", [DocEvent.storeCall])
  | Except.ok _ =>
    let r := queryLoop filename search synth queries
    let _ := cleanupEmbeddings destroyRes
    (Except.ok r.1, DocEvent.storeCall :: r.2 ++ [DocEvent.destroyCall])

/-- Sequential per-document processing of `parseDocuments`; a document whose
`storeEmbeddings` throws aborts the run through the top-level catch
(`throw new Error("Failed to process documents")`).  Events are tagged with
the document's position. -/
def parseDocumentsGo (queries : List String)
    (populateRes : String → Except String Unit)
    (search : String → String → Except String (List VectorSearchResult))
    (synth : String → String → Except String String)
    (destroyRes : String → Except String Unit) :
    Nat → List String → Except String (List FileResult) × List (Nat × DocEvent)
  | _, [] => (Except.ok [], [])
  | i, f :: rest =>
    match docFlow f queries (populateRes f) (search f) (synth f) (destroyRes f) with
    | (Except.error _, evs) =>
      (Except.error "Failed to process documents", evs.map (fun e => (i, e)))
    | (Except.ok answers, evs) =>
      let r := parseDocumentsGo queries populateRes search synth destroyRes (i + 1) rest
      match r with
      | (Except.error e, evs') =>
        (Except.error e, evs.map (fun e => (i, e)) ++ evs')
      | (Except.ok results, evs') =>
        (Except.ok ({ filename := f, answers := answers } :: results),
          evs.map (fun e => (i, e)) ++ evs')

/-- `parseDocuments` at the per-document level: file results (or the
top-level failure) plus the tagged event trace. -/
def parseDocumentsRun (files : List String) (queries : List String)
    (populateRes : String → Except String Unit)
    (search : String → String → Except String (List VectorSearchResult))
    (synth : String → String → Except String String)
    (destroyRes : String → Except String Unit) :
    Except String (List FileResult) × List (Nat × DocEvent) :=
  parseDocumentsGo queries populateRes search synth destroyRes 0 files

/-! ## `storeEmbeddings` (embeddings module) as an operation trace

The populate step maps each processed chunk to a vector id
`sessionId:chunk:index`, upserts in batches of the configured size, then
waits a settling delay and runs the storage self-check
(`testEmbeddingsStorage`: a fetch of the first three chunk ids and a simple
similarity query with `topK = 3`) before returning. -/

inductive StoreEvent
  | upsert (ids : List String)
  | wait (ms : Nat)
  | fetchCheck (ids : List String)
  | queryCheck (topK : Nat)
deriving DecidableEq

/-- The vector ids `sessionId:chunk:i` for `i < n`, in index order. -/
def segIds (sessionId : String) (n : Nat) : List String :=
  (List.range n).map fun i => sessionId ++ ":chunk:" ++ toString i

/-- The batching loop `for (i = 0; i < vectors.length; i += batchSize)`,
each batch being `vectors.slice(i, i + batchSize)`; `fuel` bounds the number
of iterations (the list length suffices for a positive batch size). -/
def chunkBatches (bs : Nat) : Nat → List String → List (List String)
  | 0, l => if l = [] then [] else [l]
  | fuel + 1, l =>
    if l = [] then [] else l.take bs :: chunkBatches bs fuel (l.drop bs)

def batches (bs : Nat) (l : List String) : List (List String) :=
  chunkBatches bs l.length l

/-- The operation trace of `storeEmbeddings processedChunks sessionId`. -/
def storeEmbeddingsTrace {α : Type} (processedChunks : List α)
    (sessionId : String) : List StoreEvent :=
  let ids := segIds sessionId processedChunks.length
  (batches embeddingsBatchSize ids).map StoreEvent.upsert ++
    [StoreEvent.wait 2000,
     StoreEvent.fetchCheck
       [sessionId ++ ":chunk:0", sessionId ++ ":chunk:1", sessionId ++ ":chunk:2"],
     StoreEvent.queryCheck 3]

/-! ## Progress step count (`src/lib/extraction.ts` lines 138-150) -/

/-- `totalChunks * totalStepsMultiplier + queries.length * files.length +
baseStepsCount`, the recomputed total published with the `chunks_created`
progress event. -/
def actualTotalSteps (totalChunks queriesLen filesLen : Nat) : Nat :=
  totalChunks * totalStepsMultiplier + queriesLen * filesLen + baseStepsCount

/-- `fileChunksArray.reduce((sum, {chunks}) => sum + chunks.length, 0)`. -/
def totalChunksOf {α : Type} (fileChunksArr : List (List α)) : Nat :=
  (fileChunksArr.map List.length).sum

/-- **C9.** Once slice counts are known, the recomputed total step count
published with the `chunks_created` event equals
`totalSlices × 2 + queries × documents + baseSteps`, with multiplier 2 and
base step count 2 coming from configuration. -/
theorem C9_total_steps {α β γ : Type} (fileChunksArr : List (List α))
    (queries : List β) (files : List γ) :
    actualTotalSteps (totalChunksOf fileChunksArr) queries.length files.length =
      (fileChunksArr.map List.length).sum * 2 + queries.length * files.length + 2
    ∧ totalStepsMultiplier = 2 ∧ baseStepsCount = 2 :=
  ⟨rfl, rfl, rfl⟩

lemma chunkBatches_flatten {bs : Nat} (hbs : 0 < bs) :
    ∀ (fuel : Nat) (l : List String), l.length ≤ fuel →
      (chunkBatches bs fuel l).flatten = l := by
  intro fuel
  induction fuel with
  | zero =>
    intro l hl
    have : l = [] := List.length_eq_zero.mp (Nat.le_zero.mp hl)
    subst this
    rfl
  | succ n ih =>
    intro l hl
    by_cases hle : l = []
    · subst hle; rfl
    · rw [chunkBatches, if_neg hle]
      have hlen : 0 < l.length := List.length_pos.mpr hle
      rw [List.flatten_cons, ih (l.drop bs) (by
        rw [List.length_drop]
        omega)]
      exact List.take_append_drop bs l

lemma chunkBatches_mem {bs : Nat} (hbs : 0 < bs) :
    ∀ (fuel : Nat) (l : List String) (b : List String), l.length ≤ fuel →
      b ∈ chunkBatches bs fuel l → b ≠ [] ∧ b.length ≤ bs := by
  intro fuel
  induction fuel with
  | zero =>
    intro l b hl hb
    have : l = [] := List.length_eq_zero.mp (Nat.le_zero.mp hl)
    subst this
    simp [chunkBatches] at hb
  | succ n ih =>
    intro l b hl hb
    by_cases hle : l = []
    · subst hle; simp [chunkBatches] at hb
    · rw [chunkBatches, if_neg hle] at hb
      rcases List.mem_cons.mp hb with h | h
      · subst h
        constructor
        · have hlen : 0 < l.length := List.length_pos.mpr hle
          have : (l.take bs).length = min bs l.length := List.length_take bs l
          intro he
          rw [he] at this
          simp at this
          omega
        · rw [List.length_take]
          omega
      · exact ih (l.drop bs) b (by rw [List.length_drop]; omega) h

lemma chunkBatches_nil {bs fuel : Nat} : chunkBatches bs fuel ([] : List String) = [] := by
  cases fuel with
  | zero => rfl
  | succ n => rfl

lemma chunkBatches_full {bs : Nat} (hbs : 0 < bs) :
    ∀ (fuel : Nat) (l : List String) (i : Nat) (b : List String), l.length ≤ fuel →
      (chunkBatches bs fuel l).get? i = some b →
      i + 1 < (chunkBatches bs fuel l).length → b.length = bs := by
  intro fuel
  induction fuel with
  | zero =>
    intro l i b hl hget _
    have : l = [] := List.length_eq_zero.mp (Nat.le_zero.mp hl)
    subst this
    simp [chunkBatches] at hget
  | succ n ih =>
    intro l i b hl hget hlen
    by_cases hle : l = []
    · subst hle; simp [chunkBatches] at hget
    · have hEq : chunkBatches bs (n + 1) l =
          l.take bs :: chunkBatches bs n (l.drop bs) := by
        rw [chunkBatches, if_neg hle]
      rw [hEq] at hget hlen
      cases i with
      | zero =>
        have hb : b = l.take bs := by
          have : some (l.take bs) = some b := hget
          exact (Option.some.inj this).symm
        have hrest : chunkBatches bs n (l.drop bs) ≠ [] := by
          intro he
          rw [List.length_cons, he] at hlen
          simp at hlen
        have hdrop : l.drop bs ≠ [] := by
          intro he
          rw [he] at hrest
          exact hrest chunkBatches_nil
        have hlenl : bs < l.length := by
          by_contra hc
          exact hdrop (List.drop_eq_nil_of_le (by omega))
        rw [hb, List.length_take]
        omega
      | succ j =>
        have hget' : (chunkBatches bs n (l.drop bs)).get? j = some b := hget
        have hlen' : j + 1 < (chunkBatches bs n (l.drop bs)).length := by
          rw [List.length_cons] at hlen
          omega
        exact ih (l.drop bs) j b (by
          rw [List.length_drop]
          have : 0 < l.length := List.length_pos.mpr hle
          omega) hget' hlen'

/-- **C7.** `storeEmbeddings` maps the segments to ids `sessionId:chunk:i`
in index order, writes them in batches of the configured batch size 100
(each batch nonempty and at most 100, every batch before the last exactly
100, their concatenation all ids exactly once in order), then waits a
settling delay and performs the storage self-check (fetch of the first
three ids and a simple similarity query) before returning. -/
theorem C7_store_embeddings {α : Type} (processedChunks : List α) (sid : String) :
    storeEmbeddingsTrace processedChunks sid =
      (batches 100 (segIds sid processedChunks.length)).map StoreEvent.upsert ++
        [StoreEvent.wait 2000,
         StoreEvent.fetchCheck
           [sid ++ ":chunk:0", sid ++ ":chunk:1", sid ++ ":chunk:2"],
         StoreEvent.queryCheck 3]
    ∧ (batches 100 (segIds sid processedChunks.length)).flatten =
        segIds sid processedChunks.length
    ∧ (∀ b ∈ batches 100 (segIds sid processedChunks.length), b ≠ [] ∧ b.length ≤ 100)
    ∧ (∀ i b, (batches 100 (segIds sid processedChunks.length)).get? i = some b →
        i + 1 < (batches 100 (segIds sid processedChunks.length)).length →
        b.length = 100) := by
  refine ⟨rfl, ?_, ?_, ?_⟩
  · exact chunkBatches_flatten (by omega) _ _ le_rfl
  · intro b hb
    exact chunkBatches_mem (by omega) _ _ b le_rfl hb
  · intro i b hget hlen
    exact chunkBatches_full (by omega) _ _ i b le_rfl hget hlen

/-- Witness for `C7_store_embeddings` with 250 segments: batches of
100, 100, 50, first batch full. -/
theorem C7_store_embeddings_witness :
    (batches 100 (segIds "s" 250)).flatten = segIds "s" 250
    ∧ (batches 100 (segIds "s" 250)).get? 0 = some (segIds "s" 100)
    ∧ 0 + 1 < (batches 100 (segIds "s" 250)).length
    ∧ (segIds "s" 100).length = 100 :=
  ⟨(C7_store_embeddings (List.replicate 250 0) "s").2.1,
   by decide,
   by decide,
   (C7_store_embeddings (List.replicate 250 0) "s").2.2.2 0 (segIds "s" 100)
     (by decide) (by decide)⟩

lemma queryLoop_length (filename : String)
    (search : String → Except String (List VectorSearchResult))
    (synth : String → Except String String) :
    ∀ qs : List String, ((queryLoop filename search synth qs).1).length = qs.length := by
  intro qs
  induction qs with
  | nil => rfl
  | cons q rest ih =>
    rw [queryLoop]
    simpa using ih

lemma queryLoop_events (filename : String)
    (search : String → Except String (List VectorSearchResult))
    (synth : String → Except String String) :
    ∀ qs : List String,
      (queryLoop filename search synth qs).2 = qs.map DocEvent.queryCall := by
  intro qs
  induction qs with
  | nil => rfl
  | cons q rest ih =>
    rw [queryLoop]
    simpa using ih

lemma queryLoop_get? (filename : String)
    (search : String → Except String (List VectorSearchResult))
    (synth : String → Except String String) :
    ∀ (qs : List String) (i : Nat) (q : String), qs.get? i = some q →
      ((queryLoop filename search synth qs).1).get? i =
        some (processOneQuery filename q (search q) (synth q)) := by
  intro qs
  induction qs with
  | nil => intro i q h; simp at h
  | cons q0 rest ih =>
    intro i q h
    cases i with
    | zero =>
      have hq : q0 = q := by simpa using h
      subst hq
      rfl
    | succ j =>
      have h' : rest.get? j = some q := h
      exact ih j q h'

lemma processOneQuery_query (filename q : String)
    (sr : Except String (List VectorSearchResult)) (syr : Except String String) :
    (processOneQuery filename q sr syr).query = q := by
  cases sr with
  | error e => rfl
  | ok chunks =>
    cases syr with
    | error e => rfl
    | ok a => rfl

/-- **C8.** For each document the queries are answered strictly in input
order (the search-call trace is exactly the query list in order), exactly
one answer is produced per query at the same position, and a failure while
retrieving **or synthesizing** one query yields the placeholder answer
(confidence 0, explanatory error text) while the loop continues: all other
answers are still produced. -/
theorem C8_queries_in_order (filename : String)
    (search : String → Except String (List VectorSearchResult))
    (synth : String → Except String String) (queries : List String) :
    ((queryLoop filename search synth queries).1).length = queries.length
    ∧ (queryLoop filename search synth queries).2 = queries.map DocEvent.queryCall
    ∧ (∀ i q, queries.get? i = some q →
        ∃ a, ((queryLoop filename search synth queries).1).get? i = some a
          ∧ a.query = q)
    ∧ (∀ i q e, queries.get? i = some q → search q = Except.error e →
        ((queryLoop filename search synth queries).1).get? i = some
          { query := q
            answer := "Error: Unable to process this query due to processing error."
            confidence := 0
            sources := [filename]
            qtype := detectQueryType q
            debugChunks := []
            debugContext := [] })
    ∧ (∀ i q chunks e, queries.get? i = some q → search q = Except.ok chunks →
        synth q = Except.error e →
        ((queryLoop filename search synth queries).1).get? i = some
          { query := q
            answer := "Error: Unable to process this query due to processing error."
            confidence := 0
            sources := [filename]
            qtype := detectQueryType q
            debugChunks := []
            debugContext := [] }) := by
  refine ⟨queryLoop_length filename search synth queries,
    queryLoop_events filename search synth queries, ?_, ?_, ?_⟩
  · intro i q h
    exact ⟨processOneQuery filename q (search q) (synth q),
      queryLoop_get? filename search synth queries i q h,
      processOneQuery_query filename q _ _⟩
  · intro i q e hq hs
    rw [queryLoop_get? filename search synth queries i q hq, hs]
    rfl
  · intro i q chunks e hq hs hsyn
    rw [queryLoop_get? filename search synth queries i q hq, hs, hsyn]
    rfl

/-- Witness for `C8_queries_in_order`: three queries, the second one's
retrieval throws and the third one's synthesis throws; all three answers
are still produced, the second and third being the placeholder. -/
theorem C8_queries_in_order_witness :
    (["Q1?", "Q2?", "Q3?"] : List String).get? 1 = some "Q2?"
    ∧ (["Q1?", "Q2?", "Q3?"] : List String).get? 2 = some "Q3?"
    ∧ ((queryLoop "doc.pdf"
        (fun q => if q = "Q2?" then Except.error "search down"
          else Except.ok ([] : List VectorSearchResult))
        (fun q => if q = "Q3?" then Except.error "synthesis down"
          else Except.ok "ok") ["Q1?", "Q2?", "Q3?"]).1).get? 1 = some
          { query := "Q2?"
            answer := "Error: Unable to process this query due to processing error."
            confidence := 0
            sources := ["doc.pdf"]
            qtype := detectQueryType "Q2?"
            debugChunks := []
            debugContext := [] }
    ∧ ((queryLoop "doc.pdf"
        (fun q => if q = "Q2?" then Except.error "search down"
          else Except.ok ([] : List VectorSearchResult))
        (fun q => if q = "Q3?" then Except.error "synthesis down"
          else Except.ok "ok") ["Q1?", "Q2?", "Q3?"]).1).get? 2 = some
          { query := "Q3?"
            answer := "Error: Unable to process this query due to processing error."
            confidence := 0
            sources := ["doc.pdf"]
            qtype := detectQueryType "Q3?"
            debugChunks := []
            debugContext := [] } :=
  ⟨rfl, rfl,
    (C8_queries_in_order "doc.pdf" _ _ ["Q1?", "Q2?", "Q3?"]).2.2.2.1 1 "Q2?"
      "search down" rfl (by norm_num),
    (C8_queries_in_order "doc.pdf" _ _ ["Q1?", "Q2?", "Q3?"]).2.2.2.2 2 "Q3?" []
      "synthesis down" rfl (by rw [if_neg (by decide)]) (by norm_num)⟩

/-- **C6, counterexample.** A query whose retrieval succeeds with zero
matches yields confidence 0 but a *non-empty* source list: the sources are
`[filename]`, never `[]` (both the success and the error path of the query
loop set `sources: [file.name]`). -/
theorem C6_zero_matches_counterexample :
    (processOneQuery "doc.pdf" "Anything?" (Except.ok []) (Except.ok "Keine Angabe")).confidence = 0
    ∧ (processOneQuery "doc.pdf" "Anything?" (Except.ok []) (Except.ok "Keine Angabe")).sources
        = ["doc.pdf"]
    ∧ (processOneQuery "doc.pdf" "Anything?" (Except.ok []) (Except.ok "Keine Angabe")).sources
        ≠ ([] : List String) := by
  refine ⟨rfl, rfl, by decide⟩

lemma jsOrZero_eq (x : Rat) : jsOrZero x = x := by
  rw [jsOrZero]
  split_ifs with h
  · rw [h]
  · rfl

/-- **C6 (amended).** For a query whose retrieval returns zero matches the
resulting answer has confidence exactly 0 and sources `[filename]` (the
document itself — not an empty list), and no exception propagates (the loop
body is total, producing an answer on the error path as well, again with
confidence 0 and sources `[filename]`); when retrieval returns at least one
match and synthesis succeeds, the confidence equals the top-ranked match's
similarity score. -/
theorem C6_zero_matches_amended (filename query : String)
    (synthRes : Except String String) :
    ((processOneQuery filename query (Except.ok []) synthRes).confidence = 0
      ∧ (processOneQuery filename query (Except.ok []) synthRes).sources = [filename])
    ∧ (∀ e, (processOneQuery filename query (Except.error e) synthRes).confidence = 0
        ∧ (processOneQuery filename query (Except.error e) synthRes).sources = [filename])
    ∧ (∀ (c : VectorSearchResult) (cs : List VectorSearchResult) (a : String),
        (processOneQuery filename query (Except.ok (c :: cs)) (Except.ok a)).confidence
          = c.score) := by
  refine ⟨?_, ?_, ?_⟩
  · cases synthRes with
    | error e => exact ⟨rfl, rfl⟩
    | ok a => exact ⟨rfl, rfl⟩
  · intro e
    exact ⟨rfl, rfl⟩
  · intro c cs a
    exact jsOrZero_eq c.score

/-- Witness for `C6_zero_matches_amended` at concrete values. -/
theorem C6_zero_matches_amended_witness :
    (processOneQuery "doc.pdf" "Q?" (Except.ok [])
      (Except.ok "Keine Angabe")).confidence = 0
    ∧ (processOneQuery "doc.pdf" "Q?"
        (Except.ok [{ id := "x", score := 1, text := "t", filename := "doc.pdf" }])
        (Except.ok "Ja")).confidence = 1 :=
  ⟨(C6_zero_matches_amended "doc.pdf" "Q?" (Except.ok "Keine Angabe")).1.1,
    (C6_zero_matches_amended "doc.pdf" "Q?" (Except.ok "Ja")).2.2
      { id := "x", score := 1, text := "t", filename := "doc.pdf" } [] "Ja"⟩

lemma docFlow_destroy_irrel (f : String) (queries : List String)
    (p : Except String Unit)
    (s : String → Except String (List VectorSearchResult))
    (syn : String → Except String String) (d₁ d₂ : Except String Unit) :
    docFlow f queries p s syn d₁ = docFlow f queries p s syn d₂ := by
  cases p with
  | error e => rfl
  | ok u => rfl

lemma parseDocumentsGo_destroy_irrel (queries : List String)
    (p : String → Except String Unit)
    (s : String → String → Except String (List VectorSearchResult))
    (syn : String → String → Except String String)
    (d₁ d₂ : String → Except String Unit) :
    ∀ (files : List String) (i : Nat),
      parseDocumentsGo queries p s syn d₁ i files =
        parseDocumentsGo queries p s syn d₂ i files := by
  intro files
  induction files with
  | nil => intro i; rfl
  | cons f rest ih =>
    intro i
    rw [parseDocumentsGo, parseDocumentsGo,
      docFlow_destroy_irrel f queries (p f) (s f) (syn f) (d₁ f) (d₂ f),
      ih (i + 1)]

lemma parseDocumentsGo_trace_cons (queries : List String)
    (p : String → Except String Unit)
    (s : String → String → Except String (List VectorSearchResult))
    (syn : String → String → Except String String)
    (d : String → Except String Unit) (f : String) (rest : List String)
    (i : Nat) (hp : p f = Except.ok ()) :
    (parseDocumentsGo queries p s syn d i (f :: rest)).2 =
      ((DocEvent.storeCall :: queries.map DocEvent.queryCall ++
          [DocEvent.destroyCall]).map (fun e => (i, e)))
        ++ (parseDocumentsGo queries p s syn d (i + 1) rest).2 := by
  rw [parseDocumentsGo]
  have hdf : docFlow f queries (p f) (s f) (syn f) (d f) =
      (Except.ok (queryLoop f (s f) (syn f) queries).1,
        DocEvent.storeCall :: (queryLoop f (s f) (syn f) queries).2 ++
          [DocEvent.destroyCall]) := by
    rw [hp]
    rfl
  rw [hdf, queryLoop_events]
  rcases hr : parseDocumentsGo queries p s syn d (i + 1) rest with ⟨res, evs'⟩
  cases res with
  | error e => simp
  | ok results => simp

lemma parseDocumentsGo_trace_cons_err (queries : List String)
    (p : String → Except String Unit)
    (s : String → String → Except String (List VectorSearchResult))
    (syn : String → String → Except String String)
    (d : String → Except String Unit) (f : String) (rest : List String)
    (i : Nat) (er : String) (hp : p f = Except.error er) :
    parseDocumentsGo queries p s syn d i (f :: rest) =
      (Except.error "Failed to process documents", [(i, DocEvent.storeCall)]) := by
  rw [parseDocumentsGo]
  have hdf : docFlow f queries (p f) (s f) (syn f) (d f) =
      (Except.error "Failed to store embeddings", [DocEvent.storeCall]) := by
    rw [hp]
    rfl
  rw [hdf]
  rfl

lemma parseDocumentsGo_events_ge (queries : List String)
    (p : String → Except String Unit)
    (s : String → String → Except String (List VectorSearchResult))
    (syn : String → String → Except String String)
    (d : String → Except String Unit) :
    ∀ (files : List String) (i : Nat) (e : Nat × DocEvent),
      e ∈ (parseDocumentsGo queries p s syn d i files).2 → i ≤ e.1 := by
  intro files
  induction files with
  | nil =>
    intro i e he
    simp [parseDocumentsGo] at he
  | cons f rest ih =>
    intro i e he
    by_cases hp : ∃ u, p f = Except.ok u
    · obtain ⟨u, hpu⟩ := hp
      cases u
      rw [parseDocumentsGo_trace_cons queries p s syn d f rest i hpu] at he
      rcases List.mem_append.mp he with h | h
      · rcases List.mem_map.mp h with ⟨ev, _, rfl⟩
        exact le_refl i
      · exact Nat.le_of_succ_le (ih (i + 1) e h)
    · have herr : ∃ er, p f = Except.error er := by
        cases hpf : p f with
        | ok u => exact absurd ⟨u, hpf⟩ hp
        | error er => exact ⟨er, rfl⟩
      obtain ⟨er, herr⟩ := herr
      rw [parseDocumentsGo_trace_cons_err queries p s syn d f rest i er herr] at he
      have : e = (i, DocEvent.storeCall) := by simpa using he
      rw [this]

lemma countP_doc_events (i : Nat) (queries : List String) :
    ((DocEvent.storeCall :: queries.map DocEvent.queryCall ++
        [DocEvent.destroyCall]).map (fun e => (i, e))).countP
      (fun e => e == (i, DocEvent.destroyCall)) = 1 := by
  rw [List.countP_map, List.countP_append, List.countP_cons]
  have h1 : List.countP ((fun e => e == (i, DocEvent.destroyCall)) ∘ fun e => (i, e))
      (queries.map DocEvent.queryCall) = 0 := by
    rw [List.countP_eq_zero]
    intro a ha
    rcases List.mem_map.mp ha with ⟨q, _, rfl⟩
    simp
  rw [h1]
  simp

lemma countP_doc_events_ne (i k : Nat) (hik : k ≠ i) (queries : List String) :
    ((DocEvent.storeCall :: queries.map DocEvent.queryCall ++
        [DocEvent.destroyCall]).map (fun e => (i, e))).countP
      (fun e => e == (k, DocEvent.destroyCall)) = 0 := by
  rw [List.countP_eq_zero]
  intro a ha
  rcases List.mem_map.mp ha with ⟨ev, _, rfl⟩
  simp
  intro h
  exact absurd h.symm hik

lemma countP_events_of_lt (queries : List String)
    (p : String → Except String Unit)
    (s : String → String → Except String (List VectorSearchResult))
    (syn : String → String → Except String String)
    (d : String → Except String Unit) (files : List String) (i k : Nat)
    (hk : k < i) :
    (parseDocumentsGo queries p s syn d i files).2.countP
      (fun e => e == (k, DocEvent.destroyCall)) = 0 := by
  rw [List.countP_eq_zero]
  intro e he
  have hge := parseDocumentsGo_events_ge queries p s syn d files i e he
  simp
  intro h
  rw [h] at hge
  omega

lemma parseDocumentsGo_count_destroy (queries : List String)
    (p : String → Except String Unit)
    (s : String → String → Except String (List VectorSearchResult))
    (syn : String → String → Except String String)
    (d : String → Except String Unit) :
    ∀ (files : List String) (off i : Nat), i < files.length →
      (∀ j (hj : j < files.length), j ≤ i → p (files.get ⟨j, hj⟩) = Except.ok ()) →
      (parseDocumentsGo queries p s syn d off files).2.countP
        (fun e => e == (off + i, DocEvent.destroyCall)) = 1 := by
  intro files
  induction files with
  | nil =>
    intro off i hi
    simp at hi
  | cons f rest ih =>
    intro off i hi hok
    have hpf : p f = Except.ok () := hok 0 (by simp) (Nat.zero_le i)
    rw [parseDocumentsGo_trace_cons queries p s syn d f rest off hpf,
      List.countP_append]
    cases i with
    | zero =>
      rw [Nat.add_zero, countP_doc_events,
        countP_events_of_lt queries p s syn d rest (off + 1) off (by omega)]
    | succ j =>
      rw [countP_doc_events_ne off (off + (j + 1)) (by omega) queries]
      have harith : off + (j + 1) = (off + 1) + j := by omega
      rw [harith, ih (off + 1) j (by simpa using hi) ?_]
      intro j' hj' hle
      have h2 := hok (j' + 1) (by simpa using hj') (by omega)
      simpa using h2

/-- **C2.** For every run and every document that successfully completed the
populate step (its own `storeEmbeddings` succeeded, as did the documents
before it, so the run reached it): exactly one destroy call for that
document is in the run's trace by the end of the run, whatever the
outcomes of the later per-query retrievals and syntheses (the `∀ search
synth` quantification includes throwing queries); and the destroy outcome
oracle never influences the run's result or trace — a failing reset is
swallowed inside `cleanupEmbeddings` and never escalated. -/
theorem C2_session_cleanup (files queries : List String)
    (populateRes : String → Except String Unit)
    (search : String → String → Except String (List VectorSearchResult))
    (synth : String → String → Except String String)
    (d₁ d₂ : String → Except String Unit) :
    (∀ i, i < files.length →
      (∀ j (hj : j < files.length), j ≤ i →
        populateRes (files.get ⟨j, hj⟩) = Except.ok ()) →
      (parseDocumentsRun files queries populateRes search synth d₁).2.countP
        (fun e => e == (i, DocEvent.destroyCall)) = 1)
    ∧ parseDocumentsRun files queries populateRes search synth d₁ =
        parseDocumentsRun files queries populateRes search synth d₂ := by
  constructor
  · intro i hi hok
    have h := parseDocumentsGo_count_destroy queries populateRes search synth d₁
      files 0 i hi hok
    simpa using h
  · exact parseDocumentsGo_destroy_irrel queries populateRes search synth d₁ d₂ files 0

/-- Witness for `C2_session_cleanup`: two documents, both populates succeed,
the second document's retrieval throws, every reset fails — the second
document's session is still destroyed exactly once. -/
theorem C2_session_cleanup_witness :
    (1 < (["a.pdf", "b.pdf"] : List String).length)
    ∧ (parseDocumentsRun ["a.pdf", "b.pdf"] ["Q?"] (fun _ => Except.ok ())
        (fun f _ => if f = "b.pdf" then Except.error "search down"
          else Except.ok [])
        (fun _ _ => Except.ok "answer")
        (fun _ => Except.error "reset failed")).2.countP
          (fun e => e == (1, DocEvent.destroyCall)) = 1 := by
  refine ⟨by decide, ?_⟩
  exact (C2_session_cleanup ["a.pdf", "b.pdf"] ["Q?"] (fun _ => Except.ok ())
    (fun f _ => if f = "b.pdf" then Except.error "search down" else Except.ok [])
    (fun _ _ => Except.ok "answer")
    (fun _ => Except.error "reset failed") (fun _ => Except.ok ())).1 1 (by decide)
    (fun j hj _ => rfl)
